import Mathlib

/-!
Shallow embedding of the storage core of the `kstd` repository:
the `LruCache` (src/collections/lru.rs), the `BlockDevice` capability with
its blanket byte-range `read_at` (src/io/device/block/mod.rs), the
`BlockCache` write-back layer (src/io/device/block/cache.rs) and the
`CowBlockDevice` overlay (src/io/block/cow.rs).

Conventions of the embedding:
* bytes are `Nat` (no byte arithmetic occurs in the modelled code, only
  copies), buffers are `List Nat`;
* a fallible Rust operation returning `Result<T, Error>` is modelled as
  `Option (Except Err T)`, where `none` stands for a panic (an
  out-of-bounds slice or a `copy_from_slice` length mismatch) and
  `some (.error e)` for `Err(e)`;
* a `&self` method is a pure function of the state; methods that mutate
  through `&mut self` or through interior mutability return the new state;
* a wrapped (backing) device's `read_block` is a function from the block
  index and the passed buffer slice to the new buffer contents and the
  returned count; a well-behaved device returns a buffer of the same
  length (in Rust this is forced by the slice type), which theorems state
  as an explicit hypothesis where needed;
* calls made to the wrapped device are recorded in an explicit `DevCall`
  log so that invocation-counting properties can be stated.

The file is laid out as definitions first, then the theorems.
-/

set_option maxRecDepth 16384

/-- The subset of the `Error` enumeration (src/io/mod.rs) raised by the
storage core, plus a catch-all constructor standing for the remaining
device-defined variants. -/
inductive Err where
  | invalidOffset
  | bufferTooSmall
  | prematureEndOfInput
  | noSuchBlock
  | notFound
  | badAddress
  | deviceError (code : Nat)
deriving DecidableEq, Repr

/-- A byte buffer. -/
abbrev Bytes := List Nat

/-- Result of a fallible Rust computation: `none` is a panic,
`some (.error e)` is `Err(e)`, `some (.ok a)` is `Ok(a)`. -/
abbrev PRes (α : Type) := Option (Except Err α)

/-- One invocation of the wrapped (backing) `BlockDevice`. -/
inductive DevCall where
  | blockSize
  | blockCount
  | readBlock (addr : Nat)
  | writeBlock (addr : Nat)
deriving DecidableEq, Repr

/-! ## LruCache (src/collections/lru.rs)

`data` is the `VecDeque`, head = front = most-recently-used.  The eviction
handler is modelled by returning the list of evicted values (in the order
the handler would be invoked) instead of invoking an opaque closure. -/

structure LruCache (V : Type) where
  maxSize : Nat
  data : List V

namespace LruCache

/-- `LruCache::new` / `with_evict`: empty container. -/
def new (V : Type) (size : Nat) : LruCache V := ⟨size, []⟩

/-- `LruCache::insert`: if `len ≥ max_size`, pop the back (least recently
used) entry and hand it to the eviction handler, then push the new item to
the front.  Returns the evicted values. -/
def insert {V : Type} (c : LruCache V) (item : V) : LruCache V × List V :=
  if c.data.length ≥ c.maxSize then
    match c.data.getLast? with
    | some last => (⟨c.maxSize, item :: c.data.dropLast⟩, [last])
    | none => (⟨c.maxSize, [item]⟩, [])
  else
    (⟨c.maxSize, item :: c.data⟩, [])

/-- `LruCache::find`: locate the first entry satisfying the predicate,
remove it and re-insert it at the front, returning it; no reordering when
nothing matches. -/
def find {V : Type} (c : LruCache V) (p : V → Bool) : LruCache V × Option V :=
  match c.data.findIdx? p with
  | some i =>
    match c.data[i]? with
    | some item => (⟨c.maxSize, item :: c.data.eraseIdx i⟩, some item)
    | none => (c, none)
  | none => (c, none)

/-- `LruCache::len`. -/
def len {V : Type} (c : LruCache V) : Nat := c.data.length

/-- `LruCache::is_empty`. -/
def isEmpty {V : Type} (c : LruCache V) : Bool := c.data.isEmpty

/-- The `Drop` impl: repeatedly `pop_back` and evict, until empty.
Returns the values in the order the eviction handler sees them
(tail-first). -/
def drained {V : Type} : List V → List V
  | [] => []
  | x :: xs =>
    (x :: xs).getLast (by simp) :: drained (x :: xs).dropLast
termination_by l => l.length
decreasing_by simp [List.length_dropLast]

/-- The values handed to the eviction handler at teardown. -/
def dropLog {V : Type} (c : LruCache V) : List V := drained c.data

/-- Folding `insert` over a list, collecting every eviction. -/
def insertAllLog {V : Type} (c : LruCache V) (xs : List V) : LruCache V × List V :=
  match xs with
  | [] => (c, [])
  | x :: rest =>
    let p := c.insert x
    let q := insertAllLog p.1 rest
    (q.1, p.2 ++ q.2)

/-- An operation on the cache, for stating invariants over arbitrary
operation sequences. -/
inductive Op (V : Type) where
  | insert (v : V)
  | find (p : V → Bool)
  | len
  | isEmpty

/-- Apply one operation (`len`/`is_empty` do not change the state;
`insert`'s evictions are discarded here). -/
def applyOp {V : Type} (c : LruCache V) : Op V → LruCache V
  | .insert v => (c.insert v).1
  | .find p => (c.find p).1
  | .len => c
  | .isEmpty => c

/-- Run a sequence of operations from a given state. -/
def runOps {V : Type} (c : LruCache V) : List (Op V) → LruCache V
  | [] => c
  | op :: rest => runOps (c.applyOp op) rest

end LruCache

/-! ## Byte-range read over a BlockDevice (src/io/device/block/mod.rs)

`read_at` is the blanket `ReadAt<u8>` implementation, parametric in the
device's `read_block`.  `read_at`'s own device invocations are returned as
a list of block indices. -/

/-- The `u64` modulus; `offset + buffer.len()` is computed in `u64`. -/
def u64Size : Nat := 2 ^ 64

/-- The staging loop of `read_at`: for each `i` below the block count,
read block `start_block + i` into `data[i*bs .. i*bs+bs)`, aborting on the
first failure.  Also returns the indices passed to `read_block`. -/
def fillBlocks (readBlock : Nat → Bytes → PRes (Bytes × Nat)) (bs startBlock : Nat) :
    Nat → Nat → Bytes → PRes Bytes × List Nat
  | _, 0, data => (some (.ok data), [])
  | i, n + 1, data =>
    match readBlock (startBlock + i) ((data.drop (i * bs)).take bs) with
    | none => (none, [startBlock + i])
    | some (.error e) => (some (.error e), [startBlock + i])
    | some (.ok (seg, _)) =>
      let rest := fillBlocks readBlock bs startBlock (i + 1) n
        (data.take (i * bs) ++ seg ++ data.drop (i * bs + bs))
      (rest.1, (startBlock + i) :: rest.2)

/-- The staging path of `read_at` (the code below the early-return):
compute `start_block`, `end_block`, `relative_offset` and the block count,
stage that many blocks through `fillBlocks`, then copy out the window
`[relative_offset, relative_offset + len)` (an out-of-range slice is a
panic). -/
def readAtStaged (bs : Nat) (readBlock : Nat → Bytes → PRes (Bytes × Nat))
    (offset : Nat) (buf : Bytes) : PRes (Bytes × Nat) × List Nat :=
  let startBlock := offset / bs
  let endBlock := ((offset + buf.length) % u64Size) / bs
  let rel := offset % bs
  let blockCount := if rel = 0 ∧ startBlock ≠ endBlock
    then endBlock - startBlock else endBlock - startBlock + 1
  let filled := fillBlocks readBlock bs startBlock 0 blockCount
    (List.replicate (blockCount * bs) 0)
  match filled.1 with
  | none => (none, filled.2)
  | some (.error e) => (some (.error e), filled.2)
  | some (.ok data) =>
    if rel + buf.length ≤ data.length then
      (some (.ok ((data.drop rel).take buf.length, buf.length)), filled.2)
    else (none, filled.2)

/-- `ReadAt::read_at` for a `BlockDevice`.  Panics (`none`): remainder by
zero when `buf` is empty, division by zero when `block_size = 0`, and an
out-of-range slice when the copied-out window overruns the staging buffer.
(In release mode the `u64` sum `offset + len` wraps, hence `% u64Size` in
the staging path.) -/
def readAt (bs : Nat) (readBlock : Nat → Bytes → PRes (Bytes × Nat))
    (offset : Nat) (buf : Bytes) : PRes (Bytes × Nat) × List Nat :=
  if buf.length = 0 then (none, [])
  else if offset % buf.length = 0 ∧ buf.length = bs then
    (readBlock (offset / bs) buf, [offset / bs])
  else if bs = 0 then (none, [])
  else readAtStaged bs readBlock offset buf

/-- The number of blocks `read_at` stages, as the spec words it
(`end_block − start_block` when the offset is block-aligned and the range
crosses a boundary, else one more). -/
def blockCountOf (bs offset len : Nat) : Nat :=
  if offset % bs = 0 ∧ offset / bs ≠ (offset + len) / bs
  then (offset + len) / bs - offset / bs
  else (offset + len) / bs - offset / bs + 1

/-- The test device of `test_read_at_7` (src/io/device/block/mod.rs):
`block_size = 7`, `block_count = 40`, block `N`'s bytes are all `N + 1`;
reading a block index at or past 40 panics. -/
def sevenDev : Nat → Bytes → PRes (Bytes × Nat) := fun b buf =>
  if 40 ≤ b then none
  else some (.ok (List.replicate 7 (b + 1) ++ buf.drop 7, buf.length))

/-- A well-behaved device with `block_size = 10` whose every block reads
as ten `1` bytes. -/
def onesDev10 : Nat → Bytes → PRes (Bytes × Nat) := fun _ buf =>
  some (.ok (List.replicate 10 1 ++ buf.drop 10, buf.length))

/-! ## The wrapped-device interface

The backing device as consumed by `BlockCache` and `CowBlockDevice`:
`read_block` goes through `&self` (it cannot change the device state; a
state change would only be observable through interior mutability, which
the wrappers never rely on), `write_block` goes through `&mut self` and
returns the new state. -/

structure BlockDev (σ : Type) where
  blockSize : Nat
  blockCount : Nat
  read : σ → Nat → Bytes → PRes (Bytes × Nat)
  write : σ → Nat → Bytes → PRes (σ × Nat)

/-! ## CowBlockDevice (src/io/block/cow.rs)

The overlay `BTreeMap<u64, Block>` is an association list with at most
one entry per address; each `Block` is a fixed `[u8; 512]` buffer.  The
`Rc<RwLock<_>>` sharing is invisible here because distinct map entries
never alias. -/

/-- The overlay state of a `CowBlockDevice`. -/
structure CowState where
  overlay : List (Nat × Bytes)

/-- A fresh overlay (no block materialized). -/
def cowNew : CowState := ⟨[]⟩

/-- `BTreeMap::get`. -/
def ovLookup : List (Nat × Bytes) → Nat → Option Bytes
  | [], _ => none
  | (k, v) :: rest, a => if k = a then some v else ovLookup rest a

/-- `BTreeMap::insert` (replaces an existing entry). -/
def ovInsert : List (Nat × Bytes) → Nat → Bytes → List (Nat × Bytes)
  | [], k, v => [(k, v)]
  | (k', v') :: rest, k, v =>
    if k' = k then (k, v) :: rest else (k', v') :: ovInsert rest k v

/-- In-place mutation of the shared block held under key `k` (writing
through the entry's `Rc<RwLock<[u8; 512]>>`). -/
def ovUpdate : List (Nat × Bytes) → Nat → Bytes → List (Nat × Bytes)
  | [], _, _ => []
  | (k0, v0) :: rest, k, v =>
    (if k0 = k then (k, v) else (k0, v0)) :: ovUpdate rest k v

/-- `Block::new()`: a zeroed `[u8; 512]`. -/
def blockNew : Bytes := List.replicate 512 0

/-- `CowBlockDevice::load_block`: read the backing block into a fresh
512-byte buffer and insert it into the overlay; on failure the overlay is
untouched.  Returns the result (`Ok(0)` on success), the new overlay and
the backing calls made. -/
def cowLoad {σ : Type} (dev : BlockDev σ) (s : σ) (st : CowState) (block : Nat) :
    PRes Nat × CowState × List DevCall :=
  match dev.read s block blockNew with
  | none => (none, st, [.readBlock block])
  | some (.error e) => (some (.error e), st, [.readBlock block])
  | some (.ok (b, _)) => (some (.ok 0), ⟨ovInsert st.overlay block b⟩, [.readBlock block])

/-- `CowBlockDevice::read_block`: reject a too-small buffer; on an overlay
hit copy the block's 512 bytes into `buffer[0..block_size]` (a panic when
the lengths differ, i.e. when `block_size ≠ 512`); on a miss fail with
`NoSuchBlock` without touching the backing device. -/
def cowRead {σ : Type} (dev : BlockDev σ) (st : CowState) (block : Nat) (buf : Bytes) :
    PRes (Bytes × Nat) × CowState × List DevCall :=
  if buf.length < dev.blockSize then (some (.error .bufferTooSmall), st, [.blockSize])
  else
    match ovLookup st.overlay block with
    | some b =>
      if dev.blockSize = b.length then
        (some (.ok (b.take dev.blockSize ++ buf.drop dev.blockSize, dev.blockSize)),
         st, [.blockSize])
      else (none, st, [.blockSize])
    | none => (some (.error .noSuchBlock), st, [.blockSize])

/-- The tail of `CowBlockDevice::write_block` after materialization: look
the entry up again (`unwrap`), then copy the whole source buffer over
`entry[0..block_size]` (a panic when `block_size > 512` — slice out of
range — or when the source length differs from `block_size`). -/
def cowWriteCopy {σ : Type} (dev : BlockDev σ) (st1 : CowState) (block : Nat) (buf : Bytes)
    (log : List DevCall) : PRes Nat × CowState × List DevCall :=
  match ovLookup st1.overlay block with
  | none => (none, st1, .blockSize :: log)
  | some b =>
    if dev.blockSize ≤ b.length ∧ buf.length = dev.blockSize then
      (some (.ok dev.blockSize),
       ⟨ovUpdate st1.overlay block (buf ++ b.drop dev.blockSize)⟩, .blockSize :: log)
    else (none, st1, .blockSize :: log)

/-- `CowBlockDevice::write_block`: reject a too-small buffer; materialize
the block on first write via `load_block` (propagating its failure with
the overlay unchanged); then overwrite the entry through `cowWriteCopy`. -/
def cowWrite {σ : Type} (dev : BlockDev σ) (s : σ) (st : CowState) (block : Nat) (buf : Bytes) :
    PRes Nat × CowState × List DevCall :=
  if buf.length < dev.blockSize then (some (.error .bufferTooSmall), st, [.blockSize])
  else
    match (if (ovLookup st.overlay block).isSome
        then (some (Except.ok 0), st, ([] : List DevCall))
        else cowLoad dev s st block) with
    | (none, st1, log) => (none, st1, .blockSize :: log)
    | (some (.error e), st1, log) => (some (.error e), st1, .blockSize :: log)
    | (some (.ok _), st1, log) => cowWriteCopy dev st1 block buf log

/-- One caller-visible operation on a `CowBlockDevice`. -/
inductive CowOp where
  | read (addr : Nat) (buf : Bytes)
  | write (addr : Nat) (buf : Bytes)

/-- One caller-visible step: the caller's result is discarded (keeping
only whether it panicked), the new state and the backing log remain. -/
def cowStep {σ : Type} (dev : BlockDev σ) (s : σ) (st : CowState) :
    CowOp → Option Unit × CowState × List DevCall
  | .read a buf =>
    ((cowRead dev st a buf).1.map fun _ => (),
     (cowRead dev st a buf).2.1, (cowRead dev st a buf).2.2)
  | .write a buf =>
    ((cowWrite dev s st a buf).1.map fun _ => (),
     (cowWrite dev s st a buf).2.1, (cowWrite dev s st a buf).2.2)

/-- Run a sequence of operations, accumulating the backing-device log; a
panic (`none`) stops the run. -/
def cowRun {σ : Type} (dev : BlockDev σ) (s : σ) : CowState → List CowOp → CowState × List DevCall
  | st, [] => (st, [])
  | st, op :: rest =>
    match cowStep dev s st op with
    | (none, st1, log) => (st1, log)
    | (some _, st1, log) =>
      ((cowRun dev s st1 rest).1, log ++ (cowRun dev s st1 rest).2)

/-! ## BlockCache (src/io/device/block/cache.rs) -/

/-- `BlockCache`: the LRU of cached blocks `(num, data)`, the block size
captured at construction, and the wrapped device's state. -/
structure CacheState (σ : Type) where
  cache : LruCache (Nat × Bytes)
  blockSize : Nat
  dev : σ

/-- `BlockCache::new`: queries the device's `block_size` exactly once. -/
def cacheNew {σ : Type} (dev : BlockDev σ) (s : σ) (size : Nat) :
    CacheState σ × List DevCall :=
  (⟨LruCache.new _ size, dev.blockSize, s⟩, [.blockSize])

/-- `BlockCache::block_size`: the value captured at construction; no
device call. -/
def cacheBlockSize {σ : Type} (st : CacheState σ) : Nat × List DevCall :=
  (st.blockSize, [])

/-- Eviction write-back (`Drop for Block`): write each listed block back
to the device, discarding errors ("don't panic, even if the write
fails"); a device panic still propagates. -/
def writeBackAll {σ : Type} (dev : BlockDev σ) :
    σ → List (Nat × Bytes) → Option σ × List DevCall
  | s, [] => (some s, [])
  | s, (num, data) :: rest =>
    match dev.write s num data with
    | none => (none, [.writeBlock num])
    | some (.error _) =>
      let r := writeBackAll dev s rest
      (r.1, .writeBlock num :: r.2)
    | some (.ok (s', _)) =>
      let r := writeBackAll dev s' rest
      (r.1, .writeBlock num :: r.2)

/-- `BlockCache::read_block`: reject a too-small buffer; on a cache hit
promote the entry and copy its bytes into the whole buffer (a panic when
the lengths differ); on a miss read the device into a fresh
`block_size`-byte buffer (propagating failure), insert it into the LRU
(write-back of anything evicted happens here), then copy. -/
def cacheRead {σ : Type} (dev : BlockDev σ) (st : CacheState σ) (block : Nat) (buf : Bytes) :
    PRes (Bytes × Nat) × CacheState σ × List DevCall :=
  if buf.length < st.blockSize then (some (.error .bufferTooSmall), st, [])
  else
    let found := st.cache.find fun b => b.1 == block
    match found.2 with
    | some entry =>
      if buf.length = entry.2.length then
        (some (.ok (entry.2, buf.length)), { st with cache := found.1 }, [])
      else (none, { st with cache := found.1 }, [])
    | none =>
      match dev.read st.dev block (List.replicate st.blockSize 0) with
      | none => (none, st, [.readBlock block])
      | some (.error e) => (some (.error e), st, [.readBlock block])
      | some (.ok (data, _)) =>
        let ins := found.1.insert (block, data)
        match writeBackAll dev st.dev ins.2 with
        | (none, wlog) => (none, { st with cache := ins.1 }, .readBlock block :: wlog)
        | (some s', wlog) =>
          if buf.length = data.length then
            (some (.ok (data, buf.length)),
             { st with cache := ins.1, dev := s' }, .readBlock block :: wlog)
          else
            (none, { st with cache := ins.1, dev := s' }, .readBlock block :: wlog)

/-- `BlockCache::write_block`: forwards to the device; the cache is not
consulted or invalidated. -/
def cacheWrite {σ : Type} (dev : BlockDev σ) (st : CacheState σ) (block : Nat) (buf : Bytes) :
    PRes Nat × CacheState σ × List DevCall :=
  match dev.write st.dev block buf with
  | none => (none, st, [.writeBlock block])
  | some (.error e) => (some (.error e), st, [.writeBlock block])
  | some (.ok (s', cnt)) => (some (.ok cnt), { st with dev := s' }, [.writeBlock block])

/-- Read a sequence of block addresses through the cache, each request
using a `block_size`-byte buffer (as in `test_cache_read`), accumulating
the backing log; a panic stops the run. -/
def cacheReadSeq {σ : Type} (dev : BlockDev σ) :
    CacheState σ → List Nat → CacheState σ × List DevCall
  | st, [] => (st, [])
  | st, a :: rest =>
    match cacheRead dev st a (List.replicate st.blockSize 0) with
    | (none, st1, log) => (st1, log)
    | (some _, st1, log) =>
      ((cacheReadSeq dev st1 rest).1, log ++ (cacheReadSeq dev st1 rest).2)

/-- Tearing down the cache: every cached block is evicted tail-first and
written back. -/
def cacheDrop {σ : Type} (dev : BlockDev σ) (st : CacheState σ) : Option σ × List DevCall :=
  writeBackAll dev st.dev (LruCache.drained st.cache.data)

/-- Number of `read_block(addr)` invocations recorded in a log. -/
def countReads (log : List DevCall) (addr : Nat) : Nat :=
  log.count (DevCall.readBlock addr)

/-! ## Concrete devices used by witnesses and counterexamples -/

/-- A memory-backed device: the state is the store of blocks; reads
return the stored block, writes replace its first `bs` bytes. -/
def memDev (bs cnt : Nat) : BlockDev (Nat → Bytes) where
  blockSize := bs
  blockCount := cnt
  read := fun s a buf => some (.ok (s a ++ buf.drop bs, bs))
  write := fun s a buf => some (.ok (fun a' => if a' = a then buf.take bs else s a', bs))

/-- A device whose reads always fail with `NoSuchBlock` (writes succeed
and change nothing). -/
def failReadDev (bs cnt : Nat) : BlockDev Unit where
  blockSize := bs
  blockCount := cnt
  read := fun _ _ _ => some (.error .noSuchBlock)
  write := fun s _ _ => some (.ok (s, bs))

/-! # Theorems -/

/-! ## LruCache lemmas -/

namespace LruCache

theorem maxSize_insert {V : Type} (c : LruCache V) (v : V) :
    (c.insert v).1.maxSize = c.maxSize := by
  unfold insert
  split
  · cases h : c.data.getLast? <;> simp
  · simp

theorem maxSize_find {V : Type} (c : LruCache V) (p : V → Bool) :
    (c.find p).1.maxSize = c.maxSize := by
  unfold find
  split
  · split <;> simp
  · simp

theorem len_find {V : Type} (c : LruCache V) (p : V → Bool) :
    (c.find p).1.len = c.len := by
  unfold find len
  split
  · rename_i i hidx
    have hi : i < c.data.length := by
      have := List.findIdx?_eq_some_iff_findIdx_eq.mp hidx
      exact this.1
    split
    · simp [List.length_eraseIdx, hi, Nat.succ_pred_eq_of_pos, Nat.lt_of_lt_of_le]
      omega
    · rfl
  · rfl

theorem len_insert_le {V : Type} (c : LruCache V) (v : V)
    (hM : 1 ≤ c.maxSize) (h : c.len ≤ c.maxSize) :
    (c.insert v).1.len ≤ c.maxSize := by
  unfold insert len at *
  split
  · rename_i hge
    cases hLast : c.data.getLast? with
    | some last =>
      have hne : c.data ≠ [] := by
        intro hnil; rw [hnil] at hLast; simp at hLast
      have : c.data.length ≠ 0 := by simpa using List.length_pos.mpr hne |>.ne'
      simp [List.length_dropLast]
      omega
    | none =>
      have : c.data = [] := List.getLast?_eq_none_iff.mp hLast
      simp [this] at hge ⊢
      omega
  · rename_i hlt
    simp at hlt ⊢
    omega

theorem len_runOps_le {V : Type} (c : LruCache V) (ops : List (Op V))
    (hM : 1 ≤ c.maxSize) (h : c.len ≤ c.maxSize) :
    (c.runOps ops).len ≤ c.maxSize := by
  induction ops generalizing c with
  | nil => simpa [runOps]
  | cons op rest ih =>
    have hstep : (c.applyOp op).len ≤ c.maxSize ∧ (c.applyOp op).maxSize = c.maxSize := by
      cases op with
      | insert v => exact ⟨len_insert_le c v hM h, maxSize_insert c v⟩
      | find p =>
        refine ⟨?_, maxSize_find c p⟩
        show (c.find p).1.len ≤ c.maxSize
        rw [len_find]; exact h
      | len => exact ⟨h, rfl⟩
      | isEmpty => exact ⟨h, rfl⟩
    have := ih (c.applyOp op) (by rw [hstep.2]; exact hM) (by rw [hstep.2]; exact hstep.1)
    rw [hstep.2] at this
    simpa [runOps] using this

theorem drained_eq_reverse {V : Type} (l : List V) : drained l = l.reverse := by
  match l with
  | [] => simp [drained]
  | x :: xs =>
    rw [drained]
    have hne : (x :: xs) ≠ [] := by simp
    have ih := drained_eq_reverse (x :: xs).dropLast
    rw [ih]
    conv_rhs => rw [← List.dropLast_append_getLast hne]
    rw [List.reverse_append]
    simp
termination_by l.length
decreasing_by simp [List.length_dropLast]

theorem insert_log_append {V : Type} (c : LruCache V) (x : V) :
    (c.insert x).2 ++ (c.insert x).1.data.reverse = c.data.reverse ++ [x] := by
  unfold insert
  split
  · cases hLast : c.data.getLast? with
    | some last =>
      have hne : c.data ≠ [] := by
        intro hnil; rw [hnil] at hLast; simp at hLast
      conv_rhs => rw [← List.dropLast_append_getLast hne]
      have : c.data.getLast hne = last := by
        have := List.getLast?_eq_getLast c.data hne
        rw [hLast] at this
        exact (Option.some.injEq _ _).mp this.symm
      simp [this, List.reverse_append]
    | none =>
      have : c.data = [] := List.getLast?_eq_none_iff.mp hLast
      simp [this]
  · simp

theorem insertAllLog_log_append {V : Type} (xs : List V) (c : LruCache V) :
    (c.insertAllLog xs).2 ++ (c.insertAllLog xs).1.data.reverse
      = c.data.reverse ++ xs := by
  induction xs generalizing c with
  | nil => simp [insertAllLog]
  | cons x rest ih =>
    have hstep := insert_log_append c x
    have := ih (c.insert x).1
    simp only [insertAllLog]
    rw [List.append_assoc, this, ← List.append_assoc, hstep]
    simp

theorem len_insert_eq {V : Type} (c : LruCache V) (v : V)
    (hM : 1 ≤ c.maxSize) (h : c.len ≤ c.maxSize) :
    (c.insert v).1.len = min c.maxSize (c.len + 1) := by
  unfold insert len at *
  split
  · rename_i hge
    have hlen : c.data.length = c.maxSize := Nat.le_antisymm h hge
    have hne : c.data ≠ [] := by
      intro hnil
      rw [hnil] at hlen
      simp at hlen
      omega
    cases hLast : c.data.getLast? with
    | some last =>
      simp [List.length_dropLast]
      omega
    | none =>
      exact absurd (List.getLast?_eq_none_iff.mp hLast) hne
  · rename_i hlt
    simp at hlt ⊢
    omega

theorem insertAllLog_maxSize {V : Type} (xs : List V) (c : LruCache V) :
    (c.insertAllLog xs).1.maxSize = c.maxSize := by
  induction xs generalizing c with
  | nil => simp [insertAllLog]
  | cons x rest ih =>
    simp only [insertAllLog]
    rw [ih]
    exact maxSize_insert c x

theorem len_insertAllLog {V : Type} (xs : List V) (c : LruCache V)
    (hM : 1 ≤ c.maxSize) (h : c.len ≤ c.maxSize) :
    (c.insertAllLog xs).1.len = min c.maxSize (c.len + xs.length) := by
  induction xs generalizing c with
  | nil =>
    simp [insertAllLog]
    omega
  | cons x rest ih =>
    simp only [insertAllLog]
    have hstep := len_insert_eq c x hM h
    have hmax := maxSize_insert c x
    have := ih (c.insert x).1 (by rw [hmax]; exact hM)
      (by rw [hmax, hstep]; omega)
    rw [this, hmax, hstep]
    simp
    omega

end LruCache

/-! ## Claims C1 and C8 -/

/-- Claim C1, as stated, is false: an `LruCache` of capacity 0 holds one
entry after a single `insert` (the guard pops from an empty deque, gets
nothing, and pushes the new item anyway). -/
theorem lru_capacity_zero_exceeded :
    ¬ (∀ (M : Nat) (ops : List (LruCache.Op Nat)),
        ((LruCache.new Nat M).runOps ops).len ≤ M) := by
  intro h
  exact absurd (h 0 [LruCache.Op.insert 42]) (by decide)

/-- Claim C1 (amended): for every capacity M ≥ 1 and every sequence of
operations (`insert`, `find`, `len`, `is_empty`) on a fresh `LruCache` of
capacity M, the number of entries held is at most M.  (At M = 0 the cache
holds up to one entry.) -/
theorem lru_len_le_capacity {V : Type} (M : Nat) (hM : 1 ≤ M)
    (ops : List (LruCache.Op V)) :
    ((LruCache.new V M).runOps ops).len ≤ M :=
  LruCache.len_runOps_le _ _ hM (by simp [LruCache.new, LruCache.len])

/-- Witness for the amended C1 at capacity 2 and three inserts. -/
theorem lru_len_le_capacity_witness :
    1 ≤ 2 ∧ ((LruCache.new Nat 2).runOps
      [LruCache.Op.insert 5, LruCache.Op.insert 6, LruCache.Op.insert 7]).len ≤ 2 :=
  ⟨by decide, lru_len_le_capacity 2 (by decide) _⟩

/-- Claim C8: inserting 100 values into a capacity-10 `LruCache` fires the
eviction handler exactly 90 times; tearing the cache down fires it exactly
10 more times, tail-first; the two eviction logs concatenate to exactly
the inserted sequence, so every inserted value reaches the handler exactly
once and none is dropped silently. -/
theorem lru_eviction_accounting {V : Type} (xs : List V) (h : xs.length = 100) :
    ((LruCache.new V 10).insertAllLog xs).2.length = 90 ∧
    ((LruCache.new V 10).insertAllLog xs).1.dropLog.length = 10 ∧
    ((LruCache.new V 10).insertAllLog xs).2
      ++ ((LruCache.new V 10).insertAllLog xs).1.dropLog = xs := by
  have hinv : ((LruCache.new V 10).insertAllLog xs).2
      ++ ((LruCache.new V 10).insertAllLog xs).1.data.reverse = xs := by
    have h1 := LruCache.insertAllLog_log_append xs (LruCache.new V 10)
    simpa [LruCache.new] using h1
  have hlen : ((LruCache.new V 10).insertAllLog xs).1.data.length = 10 := by
    have h1 := LruCache.len_insertAllLog xs (LruCache.new V 10)
      (by show (1 : Nat) ≤ 10; omega) (by show (0 : Nat) ≤ 10; omega)
    rw [h] at h1
    have h2 : ((LruCache.new V 10).insertAllLog xs).1.len
        = ((LruCache.new V 10).insertAllLog xs).1.data.length := rfl
    have h3 : (LruCache.new V 10 : LruCache V).maxSize = 10 := rfl
    have h4 : (LruCache.new V 10 : LruCache V).len = 0 := rfl
    rw [h2, h3, h4] at h1
    omega
  have hdrop : ((LruCache.new V 10).insertAllLog xs).1.dropLog
      = ((LruCache.new V 10).insertAllLog xs).1.data.reverse :=
    LruCache.drained_eq_reverse _
  refine ⟨?_, ?_, ?_⟩
  · have hl := congrArg List.length hinv
    rw [List.length_append, List.length_reverse, h, hlen] at hl
    omega
  · rw [hdrop, List.length_reverse, hlen]
  · rw [hdrop]
    exact hinv

/-- Witness for C8: inserting `0..100` in order evicts `0..90` during the
inserts and `90..100` at teardown. -/
theorem lru_eviction_accounting_witness :
    (List.range 100).length = 100 ∧
    (((LruCache.new Nat 10).insertAllLog (List.range 100)).2.length = 90 ∧
     ((LruCache.new Nat 10).insertAllLog (List.range 100)).1.dropLog.length = 10 ∧
     ((LruCache.new Nat 10).insertAllLog (List.range 100)).2
       ++ ((LruCache.new Nat 10).insertAllLog (List.range 100)).1.dropLog
       = List.range 100) :=
  ⟨by decide, lru_eviction_accounting (List.range 100) (by decide)⟩

/-! ## Claim C6 -/

/-- Claim C6: on the `block_size = 7` test device whose block `N` reads as
seven `N + 1` bytes, `read_at(19, window)` over the 32-byte window
`[5..37)` of a 50-byte zeroed destination succeeds, stages blocks 2..7,
and produces the destination `[0 x5, 3 x2, 4 x7, 5 x7, 6 x7, 7 x7, 8 x2,
0 x13]`; bytes outside the window — the slice passed to `read_at` — are
untouched by construction. -/
theorem read_at_seven_pattern :
    readAt 7 sevenDev 19 (List.replicate 32 0)
      = (some (.ok ([3, 3, 4, 4, 4, 4, 4, 4, 4, 5, 5, 5, 5, 5, 5, 5, 6, 6, 6,
          6, 6, 6, 6, 7, 7, 7, 7, 7, 7, 7, 8, 8], 32)), [2, 3, 4, 5, 6, 7]) ∧
    List.replicate 5 0
        ++ [3, 3, 4, 4, 4, 4, 4, 4, 4, 5, 5, 5, 5, 5, 5, 5, 6, 6, 6, 6, 6, 6,
            6, 7, 7, 7, 7, 7, 7, 7, 8, 8]
        ++ List.replicate 13 0
      = [0, 0, 0, 0, 0, 3, 3, 4, 4, 4, 4, 4, 4, 4, 5, 5, 5, 5, 5, 5, 5, 6, 6,
         6, 6, 6, 6, 6, 7, 7, 7, 7, 7, 7, 7, 8, 8, 0, 0, 0, 0, 0, 0, 0, 0, 0,
         0, 0, 0, 0] := by
  constructor
  · rfl
  · rfl

/-! ## read_at staging lemmas -/

theorem fillBlocks_ok (readBlock : Nat → Bytes → PRes (Bytes × Nat)) (bs startBlock : Nat)
    (outs : Nat → Bytes) (cnts : Nat → Nat) (hlen : ∀ k, (outs k).length = bs) :
    ∀ (n i : Nat) (pre : Bytes), pre.length = i * bs →
    (∀ k, k < n → readBlock (startBlock + (i + k)) (List.replicate bs 0)
        = some (.ok (outs (i + k), cnts (i + k)))) →
    fillBlocks readBlock bs startBlock i n (pre ++ List.replicate (n * bs) 0)
      = (some (.ok (pre ++ ((List.range n).map fun k => outs (i + k)).flatten)),
         (List.range n).map fun k => startBlock + (i + k)) := by
  intro n
  induction n with
  | zero =>
    intro i pre hpre _
    simp [fillBlocks]
  | succ n ih =>
    intro i pre hpre hreads
    have hseg : ((pre ++ List.replicate ((n + 1) * bs) 0).drop (i * bs)).take bs
        = List.replicate bs 0 := by
      rw [← hpre, List.drop_left, List.take_replicate]
      congr 1
      have : bs ≤ (n + 1) * bs := Nat.le_mul_of_pos_left bs (Nat.succ_pos n)
      omega
    have htake : (pre ++ List.replicate ((n + 1) * bs) 0).take (i * bs) = pre := by
      rw [← hpre, List.take_left]
    have hdrop : (pre ++ List.replicate ((n + 1) * bs) 0).drop (i * bs + bs)
        = List.replicate (n * bs) 0 := by
      rw [← hpre, List.drop_append, List.drop_replicate]
      congr 1
      have hmul : (n + 1) * bs = n * bs + bs := by ring
      omega
    have h0 : readBlock (startBlock + i) (List.replicate bs 0)
        = some (.ok (outs i, cnts i)) := by
      have := hreads 0 (Nat.succ_pos n)
      simpa using this
    have hrec := ih (i + 1) (pre ++ outs i)
      (by rw [List.length_append, hpre, hlen]; ring)
      (by
        intro k hk
        have := hreads (k + 1) (by omega)
        have harg : i + (k + 1) = i + 1 + k := by omega
        rwa [harg] at this)
    rw [show fillBlocks readBlock bs startBlock i (n + 1)
          (pre ++ List.replicate ((n + 1) * bs) 0)
        = match readBlock (startBlock + i)
            (((pre ++ List.replicate ((n + 1) * bs) 0).drop (i * bs)).take bs) with
          | none => (none, [startBlock + i])
          | some (.error e) => (some (.error e), [startBlock + i])
          | some (.ok (seg, _)) =>
            let rest := fillBlocks readBlock bs startBlock (i + 1) n
              ((pre ++ List.replicate ((n + 1) * bs) 0).take (i * bs) ++ seg
                ++ (pre ++ List.replicate ((n + 1) * bs) 0).drop (i * bs + bs))
            (rest.1, (startBlock + i) :: rest.2)
        from rfl]
    rw [hseg, h0]
    simp only [htake, hdrop]
    rw [show pre ++ outs i ++ List.replicate (n * bs) 0
        = (pre ++ outs i) ++ List.replicate (n * bs) 0 from by simp, hrec]
    simp only [List.range_succ_eq_map, List.map_cons, List.map_map, List.flatten_cons]
    have hmap1 : (List.range n).map ((fun k => outs (i + k)) ∘ Nat.succ)
        = (List.range n).map fun k => outs (i + 1 + k) := by
      apply List.map_congr_left
      intro a _
      simp only [Function.comp_apply]
      congr 1
      omega
    have hmap2 : (List.range n).map ((fun k => startBlock + (i + k)) ∘ Nat.succ)
        = (List.range n).map fun k => startBlock + (i + 1 + k) := by
      apply List.map_congr_left
      intro a _
      simp only [Function.comp_apply]
      omega
    rw [hmap1, hmap2]
    simp [List.append_assoc]

theorem fillBlocks_err (readBlock : Nat → Bytes → PRes (Bytes × Nat)) (bs startBlock : Nat)
    (outs : Nat → Bytes) (cnts : Nat → Nat) (hlen : ∀ k, (outs k).length = bs) (e : Err) :
    ∀ (j n i : Nat) (pre : Bytes), pre.length = i * bs → j < n →
    (∀ k, k < j → readBlock (startBlock + (i + k)) (List.replicate bs 0)
        = some (.ok (outs (i + k), cnts (i + k)))) →
    readBlock (startBlock + (i + j)) (List.replicate bs 0) = some (.error e) →
    fillBlocks readBlock bs startBlock i n (pre ++ List.replicate (n * bs) 0)
      = (some (.error e), (List.range (j + 1)).map fun k => startBlock + (i + k)) := by
  intro j
  induction j with
  | zero =>
    intro n i pre hpre hj hok herr
    obtain ⟨m, rfl⟩ : ∃ m, n = m + 1 := ⟨n - 1, by omega⟩
    have hseg : ((pre ++ List.replicate ((m + 1) * bs) 0).drop (i * bs)).take bs
        = List.replicate bs 0 := by
      rw [← hpre, List.drop_left, List.take_replicate]
      congr 1
      have : bs ≤ (m + 1) * bs := Nat.le_mul_of_pos_left bs (Nat.succ_pos m)
      omega
    have herr' : readBlock (startBlock + i) (List.replicate bs 0) = some (.error e) := by
      simpa using herr
    rw [show fillBlocks readBlock bs startBlock i (m + 1)
          (pre ++ List.replicate ((m + 1) * bs) 0)
        = match readBlock (startBlock + i)
            (((pre ++ List.replicate ((m + 1) * bs) 0).drop (i * bs)).take bs) with
          | none => (none, [startBlock + i])
          | some (.error e) => (some (.error e), [startBlock + i])
          | some (.ok (seg, _)) =>
            let rest := fillBlocks readBlock bs startBlock (i + 1) m
              ((pre ++ List.replicate ((m + 1) * bs) 0).take (i * bs) ++ seg
                ++ (pre ++ List.replicate ((m + 1) * bs) 0).drop (i * bs + bs))
            (rest.1, (startBlock + i) :: rest.2)
        from rfl]
    rw [hseg, herr']
    rw [show List.range 1 = [0] from rfl]
    simp
  | succ j ih =>
    intro n i pre hpre hj hok herr
    obtain ⟨m, rfl⟩ : ∃ m, n = m + 1 := ⟨n - 1, by omega⟩
    have hseg : ((pre ++ List.replicate ((m + 1) * bs) 0).drop (i * bs)).take bs
        = List.replicate bs 0 := by
      rw [← hpre, List.drop_left, List.take_replicate]
      congr 1
      have : bs ≤ (m + 1) * bs := Nat.le_mul_of_pos_left bs (Nat.succ_pos m)
      omega
    have htake : (pre ++ List.replicate ((m + 1) * bs) 0).take (i * bs) = pre := by
      rw [← hpre, List.take_left]
    have hdrop : (pre ++ List.replicate ((m + 1) * bs) 0).drop (i * bs + bs)
        = List.replicate (m * bs) 0 := by
      rw [← hpre, List.drop_append, List.drop_replicate]
      congr 1
      have hmul : (m + 1) * bs = m * bs + bs := by ring
      omega
    have h0 : readBlock (startBlock + i) (List.replicate bs 0)
        = some (.ok (outs i, cnts i)) := by
      have := hok 0 (Nat.succ_pos j)
      simpa using this
    have hrec := ih m (i + 1) (pre ++ outs i)
      (by rw [List.length_append, hpre, hlen]; ring)
      (by omega)
      (by
        intro k hk
        have := hok (k + 1) (by omega)
        have harg : i + (k + 1) = i + 1 + k := by omega
        rwa [harg] at this)
      (by
        have harg : i + (j + 1) = i + 1 + j := by omega
        rwa [harg] at herr)
    rw [show fillBlocks readBlock bs startBlock i (m + 1)
          (pre ++ List.replicate ((m + 1) * bs) 0)
        = match readBlock (startBlock + i)
            (((pre ++ List.replicate ((m + 1) * bs) 0).drop (i * bs)).take bs) with
          | none => (none, [startBlock + i])
          | some (.error e) => (some (.error e), [startBlock + i])
          | some (.ok (seg, _)) =>
            let rest := fillBlocks readBlock bs startBlock (i + 1) m
              ((pre ++ List.replicate ((m + 1) * bs) 0).take (i * bs) ++ seg
                ++ (pre ++ List.replicate ((m + 1) * bs) 0).drop (i * bs + bs))
            (rest.1, (startBlock + i) :: rest.2)
        from rfl]
    rw [hseg, h0]
    simp only [htake, hdrop]
    rw [show pre ++ outs i ++ List.replicate (m * bs) 0
        = (pre ++ outs i) ++ List.replicate (m * bs) 0 from by simp, hrec]
    simp only [Prod.mk.injEq, true_and]
    rw [List.range_succ_eq_map (j + 1), List.map_cons, List.map_map]
    simp only [List.cons.injEq]
    refine ⟨by simp, ?_⟩
    apply List.map_congr_left
    intro a _
    simp only [Function.comp_apply]
    omega

theorem flatten_length_const (bs : Nat) :
    ∀ (ls : List Bytes), (∀ l ∈ ls, l.length = bs) → ls.flatten.length = ls.length * bs := by
  intro ls
  induction ls with
  | nil => intro _; simp
  | cons l rest ih =>
    intro h
    rw [List.flatten_cons, List.length_append, h l (by simp), ih (by intro x hx; exact h x (by simp [hx]))]
    simp [List.length_cons]
    ring

theorem fillBlocks_ok_zero (readBlock : Nat → Bytes → PRes (Bytes × Nat)) (bs startBlock : Nat)
    (outs : Nat → Bytes) (cnts : Nat → Nat) (hlen : ∀ k, (outs k).length = bs) (n : Nat)
    (hreads : ∀ k, k < n → readBlock (startBlock + k) (List.replicate bs 0)
        = some (.ok (outs k, cnts k))) :
    fillBlocks readBlock bs startBlock 0 n (List.replicate (n * bs) 0)
      = (some (.ok (((List.range n).map outs).flatten)),
         (List.range n).map fun k => startBlock + k) := by
  have h := fillBlocks_ok readBlock bs startBlock outs cnts hlen n 0 [] (by simp)
    (by intro k hk; simpa using hreads k hk)
  simpa using h

theorem fillBlocks_err_zero (readBlock : Nat → Bytes → PRes (Bytes × Nat)) (bs startBlock : Nat)
    (outs : Nat → Bytes) (cnts : Nat → Nat) (hlen : ∀ k, (outs k).length = bs)
    (e : Err) (j n : Nat) (hj : j < n)
    (hok : ∀ k, k < j → readBlock (startBlock + k) (List.replicate bs 0)
        = some (.ok (outs k, cnts k)))
    (herr : readBlock (startBlock + j) (List.replicate bs 0) = some (.error e)) :
    fillBlocks readBlock bs startBlock 0 n (List.replicate (n * bs) 0)
      = (some (.error e), (List.range (j + 1)).map fun k => startBlock + k) := by
  have h := fillBlocks_err readBlock bs startBlock outs cnts hlen e j n 0 [] (by simp) hj
    (by intro k hk; simpa using hok k hk)
    (by simpa using herr)
  simpa using h

theorem window_fits (bs offset L : Nat) (hbs : 0 < bs) (hbuf : 0 < L)
    (hnd : ¬(offset % bs = 0 ∧ L = bs))
    (hfit : offset % bs ≠ 0 ∨ L ≤ bs ∨ bs ∣ L) :
    offset % bs + L ≤ blockCountOf bs offset L * bs := by
  unfold blockCountOf
  by_cases hrel : offset % bs = 0
  · have hLne : L ≠ bs := fun h => hnd ⟨hrel, h⟩
    by_cases hqe : offset / bs = (offset + L) / bs
    · rw [if_neg (fun hc => hc.2 hqe)]
      rcases hfit with h | h | h
      · exact absurd hrel h
      · rw [← hqe, Nat.sub_self, Nat.zero_add, Nat.one_mul, hrel, Nat.zero_add]
        exact h
      · obtain ⟨m, hm⟩ := h
        have hE : (offset + L) / bs = offset / bs + m := by
          rw [hm]; exact Nat.add_mul_div_left _ _ hbs
        have hm0 : m = 0 := by omega
        have : L = 0 := by rw [hm, hm0]; ring
        omega
    · rw [if_pos ⟨hrel, hqe⟩]
      rcases hfit with h | h | h
      · exact absurd hrel h
      · exfalso
        apply hqe
        have hq := Nat.div_add_mod offset bs
        have hL : L < bs := lt_of_le_of_ne h hLne
        have hcalc : (offset + L) / bs = offset / bs := by
          conv_lhs => rw [show offset + L = bs * (offset / bs) + L from by omega]
          rw [Nat.mul_add_div hbs, Nat.div_eq_of_lt hL, Nat.add_zero]
        exact hcalc.symm
      · obtain ⟨m, hm⟩ := h
        have hE : (offset + L) / bs = offset / bs + m := by
          rw [hm]; exact Nat.add_mul_div_left _ _ hbs
        rw [hE, Nat.add_sub_cancel_left, hrel, hm, Nat.zero_add, Nat.mul_comm]
  · rw [if_neg (fun hc => hrel hc.1)]
    have h1 := Nat.div_add_mod offset bs
    have h2 := Nat.div_add_mod (offset + L) bs
    have h3 : offset % bs < bs := Nat.mod_lt _ hbs
    have h4 : (offset + L) % bs < bs := Nat.mod_lt _ hbs
    have h5 : offset / bs ≤ (offset + L) / bs := Nat.div_le_div_right (Nat.le_add_right _ _)
    have h6 : bs * (offset / bs) ≤ bs * ((offset + L) / bs) := Nat.mul_le_mul_left _ h5
    have h7 : ((offset + L) / bs - offset / bs + 1) * bs
        = bs * ((offset + L) / bs) - bs * (offset / bs) + bs := by
      rw [Nat.add_mul, Nat.sub_mul, Nat.one_mul,
        Nat.mul_comm ((offset + L) / bs) bs, Nat.mul_comm (offset / bs) bs]
    omega

theorem readAtStaged_of_ok (bs offset : Nat) (buf : Bytes)
    (readBlock : Nat → Bytes → PRes (Bytes × Nat)) (data : Bytes) (log : List Nat)
    (hov : offset + buf.length < u64Size)
    (hfb : fillBlocks readBlock bs (offset / bs) 0 (blockCountOf bs offset buf.length)
        (List.replicate (blockCountOf bs offset buf.length * bs) 0) = (some (.ok data), log)) :
    readAtStaged bs readBlock offset buf
      = if offset % bs + buf.length ≤ data.length
        then (some (.ok ((data.drop (offset % bs)).take buf.length, buf.length)), log)
        else (none, log) := by
  unfold readAtStaged
  have hmod : (offset + buf.length) % u64Size = offset + buf.length := Nat.mod_eq_of_lt hov
  simp only [hmod]
  have hN : (if offset % bs = 0 ∧ offset / bs ≠ (offset + buf.length) / bs
      then (offset + buf.length) / bs - offset / bs
      else (offset + buf.length) / bs - offset / bs + 1) = blockCountOf bs offset buf.length := by
    unfold blockCountOf
    rfl
  rw [hN, hfb]

theorem readAtStaged_of_err (bs offset : Nat) (buf : Bytes)
    (readBlock : Nat → Bytes → PRes (Bytes × Nat)) (e : Err) (log : List Nat)
    (hov : offset + buf.length < u64Size)
    (hfb : fillBlocks readBlock bs (offset / bs) 0 (blockCountOf bs offset buf.length)
        (List.replicate (blockCountOf bs offset buf.length * bs) 0) = (some (.error e), log)) :
    readAtStaged bs readBlock offset buf = (some (.error e), log) := by
  unfold readAtStaged
  have hmod : (offset + buf.length) % u64Size = offset + buf.length := Nat.mod_eq_of_lt hov
  simp only [hmod]
  have hN : (if offset % bs = 0 ∧ offset / bs ≠ (offset + buf.length) / bs
      then (offset + buf.length) / bs - offset / bs
      else (offset + buf.length) / bs - offset / bs + 1) = blockCountOf bs offset buf.length := by
    unfold blockCountOf
    rfl
  rw [hN, hfb]

/-! ## Claim C5 -/

/-- Claim C5 (amended): for a device with `block_size > 0` and a nonempty
request buffer with no `u64` overflow: (1) if the request is exactly one
block-aligned block (`offset % block_size = 0` and `len = block_size`),
`read_at` delegates to a single `read_block`; (2) otherwise it issues
`read_block` for exactly `blockCountOf` consecutive blocks from
`start_block = offset / block_size` and, when every read succeeds, copies
the window `[relative_offset, relative_offset + len)` of the staged bytes
— provided that window fits, i.e. unless `relative_offset = 0`,
`len > block_size` and `block_size ∤ len`, in which case the copy panics
instead (see the counterexample); (3) a failing `read_block` aborts the
whole operation with that error after reading exactly the blocks up to the
failing one. -/
theorem read_at_blanket_spec (bs offset : Nat) (buf : Bytes)
    (readBlock : Nat → Bytes → PRes (Bytes × Nat))
    (outs : Nat → Bytes) (cnts : Nat → Nat)
    (hbs : 0 < bs) (hbuf : 0 < buf.length)
    (hov : offset + buf.length < u64Size) :
    ((offset % bs = 0 ∧ buf.length = bs) →
      readAt bs readBlock offset buf = (readBlock (offset / bs) buf, [offset / bs])) ∧
    (¬(offset % bs = 0 ∧ buf.length = bs) →
      (offset % bs ≠ 0 ∨ buf.length ≤ bs ∨ bs ∣ buf.length) →
      (∀ k, (outs k).length = bs) →
      (∀ k, k < blockCountOf bs offset buf.length →
        readBlock (offset / bs + k) (List.replicate bs 0) = some (.ok (outs k, cnts k))) →
      readAt bs readBlock offset buf
        = (some (.ok (((((List.range (blockCountOf bs offset buf.length)).map outs).flatten).drop
              (offset % bs)).take buf.length, buf.length)),
           (List.range (blockCountOf bs offset buf.length)).map fun k => offset / bs + k)) ∧
    (∀ j e, ¬(offset % bs = 0 ∧ buf.length = bs) →
      j < blockCountOf bs offset buf.length →
      (∀ k, (outs k).length = bs) →
      (∀ k, k < j → readBlock (offset / bs + k) (List.replicate bs 0)
          = some (.ok (outs k, cnts k))) →
      readBlock (offset / bs + j) (List.replicate bs 0) = some (.error e) →
      readAt bs readBlock offset buf
        = (some (.error e), (List.range (j + 1)).map fun k => offset / bs + k)) := by
  have h0 : ¬(buf.length = 0) := by omega
  refine ⟨?_, ?_, ?_⟩
  · rintro ⟨h1, h2⟩
    unfold readAt
    rw [if_neg h0, if_pos ⟨by rw [h2]; exact h1, h2⟩]
  · intro hnd hfit hlen hreads
    have hnd' : ¬(offset % buf.length = 0 ∧ buf.length = bs) := by
      intro hc
      exact hnd ⟨hc.2 ▸ hc.1, hc.2⟩
    unfold readAt
    rw [if_neg h0, if_neg hnd', if_neg (by omega)]
    rw [readAtStaged_of_ok bs offset buf readBlock
      (((List.range (blockCountOf bs offset buf.length)).map outs).flatten)
      ((List.range (blockCountOf bs offset buf.length)).map fun k => offset / bs + k)
      hov
      (fillBlocks_ok_zero readBlock bs (offset / bs) outs cnts hlen
        (blockCountOf bs offset buf.length) hreads)]
    rw [if_pos]
    have hdl : (((List.range (blockCountOf bs offset buf.length)).map outs).flatten).length
        = blockCountOf bs offset buf.length * bs := by
      rw [flatten_length_const bs]
      · simp
      · intro l hl
        obtain ⟨k, _, rfl⟩ := List.mem_map.mp hl
        exact hlen k
    rw [hdl]
    exact window_fits bs offset buf.length hbs hbuf hnd hfit
  · intro j e hnd hj hlen hok herr
    have hnd' : ¬(offset % buf.length = 0 ∧ buf.length = bs) := by
      intro hc
      exact hnd ⟨hc.2 ▸ hc.1, hc.2⟩
    unfold readAt
    rw [if_neg h0, if_neg hnd', if_neg (by omega)]
    exact readAtStaged_of_err bs offset buf readBlock e _ hov
      (fillBlocks_err_zero readBlock bs (offset / bs) outs cnts hlen e j
        (blockCountOf bs offset buf.length) hj hok herr)

/-- Claim C5, as stated, is false at two concrete inputs.  With
`block_size = 10` over a device whose reads all succeed, `read_at(0, buf)`
with a 15-byte buffer stages `end_block − start_block = 1` block (10
bytes, the address-0 read does happen) and then panics copying the window
`[0, 15)` out of it, instead of copying the window into `buf` and
succeeding as the claim describes.  And with an empty buffer, `read_at`
panics on `offset % buffer.len()` (remainder by zero) before issuing any
`read_block` at all (empty log), while the claim describes one staged
block read and a successful empty copy. -/
theorem read_at_window_overrun_panics :
    readAt 10 onesDev10 0 (List.replicate 15 0) = (none, [0]) ∧
    (∀ w : Bytes × Nat, (readAt 10 onesDev10 0 (List.replicate 15 0)).1
      ≠ some (.ok w)) ∧
    readAt 10 onesDev10 3 [] = (none, []) := by
  refine ⟨rfl, ?_, rfl⟩
  intro w
  rw [show readAt 10 onesDev10 0 (List.replicate 15 0) = (none, [0]) from rfl]
  simp

/-- Witness for the amended C5 at `block_size = 10`, `offset = 23`, a
15-byte buffer and the all-ones device. -/
theorem read_at_blanket_spec_witness :
    ((0 : Nat) < 10 ∧ 0 < (List.replicate 15 (0 : Nat)).length
      ∧ 23 + (List.replicate 15 (0 : Nat)).length < u64Size) ∧
    (((23 % 10 = 0 ∧ (List.replicate 15 (0 : Nat)).length = 10) →
      readAt 10 onesDev10 23 (List.replicate 15 0)
        = (onesDev10 (23 / 10) (List.replicate 15 0), [23 / 10])) ∧
     (¬(23 % 10 = 0 ∧ (List.replicate 15 (0 : Nat)).length = 10) →
      (23 % 10 ≠ 0 ∨ (List.replicate 15 (0 : Nat)).length ≤ 10
        ∨ 10 ∣ (List.replicate 15 (0 : Nat)).length) →
      (∀ k : Nat, (List.replicate 10 (1 : Nat)).length = 10) →
      (∀ k, k < blockCountOf 10 23 (List.replicate 15 (0 : Nat)).length →
        onesDev10 (23 / 10 + k) (List.replicate 10 0)
          = some (.ok (List.replicate 10 1, 10))) →
      readAt 10 onesDev10 23 (List.replicate 15 0)
        = (some (.ok (((((List.range (blockCountOf 10 23 (List.replicate 15 (0 : Nat)).length)).map
              (fun _ => List.replicate 10 1)).flatten).drop (23 % 10)).take
              (List.replicate 15 (0 : Nat)).length,
            (List.replicate 15 (0 : Nat)).length)),
           (List.range (blockCountOf 10 23 (List.replicate 15 (0 : Nat)).length)).map
             fun k => 23 / 10 + k)) ∧
     (∀ j e, ¬(23 % 10 = 0 ∧ (List.replicate 15 (0 : Nat)).length = 10) →
      j < blockCountOf 10 23 (List.replicate 15 (0 : Nat)).length →
      (∀ k : Nat, (List.replicate 10 (1 : Nat)).length = 10) →
      (∀ k, k < j → onesDev10 (23 / 10 + k) (List.replicate 10 0)
          = some (.ok (List.replicate 10 1, 10))) →
      onesDev10 (23 / 10 + j) (List.replicate 10 0) = some (.error e) →
      readAt 10 onesDev10 23 (List.replicate 15 0)
        = (some (.error e), (List.range (j + 1)).map fun k => 23 / 10 + k))) :=
  ⟨⟨by decide, by decide, by decide⟩,
   read_at_blanket_spec 10 23 (List.replicate 15 0) onesDev10
     (fun _ => List.replicate 10 1) (fun _ => 10)
     (by decide) (by decide) (by decide)⟩

/-! ## BlockCache lemmas and claims C9, C7 -/

theorem LruCache.find_some_mem {V : Type} (c : LruCache V) (p : V → Bool) (v : V)
    (h : (c.find p).2 = some v) : v ∈ c.data := by
  unfold LruCache.find at h
  split at h
  · split at h
    · rename_i item hget
      cases h
      exact List.getElem?_mem hget
    · cases h
  · cases h

/-- Claim C9: `BlockCache::read_block` returns `BufferTooSmall` exactly
when the buffer is smaller than the captured `block_size` (given that the
wrapped device, handed an exactly-block-sized buffer, does not itself
produce `BufferTooSmall`); it returns `Ok` only when the buffer length is
exactly `block_size`; and for a strictly larger buffer, whenever the block
is actually obtained (a cache hit, or a successful device read), the final
`copy_from_slice` has mismatched lengths and panics instead of returning a
result. -/
theorem cache_read_buffer_length_contract {σ : Type} (dev : BlockDev σ)
    (st : CacheState σ) (block : Nat) (buf : Bytes)
    (hcache : ∀ e ∈ st.cache.data, (e : Nat × Bytes).2.length = st.blockSize)
    (hlp : ∀ out cnt, dev.read st.dev block (List.replicate st.blockSize 0)
        = some (.ok (out, cnt)) → out.length = st.blockSize)
    (hnbts : ∀ e : Err, dev.read st.dev block (List.replicate st.blockSize 0)
        = some (.error e) → e ≠ .bufferTooSmall) :
    ((cacheRead dev st block buf).1 = some (.error .bufferTooSmall)
        ↔ buf.length < st.blockSize) ∧
    (∀ out cnt, (cacheRead dev st block buf).1 = some (.ok (out, cnt)) →
      buf.length = st.blockSize) ∧
    (buf.length > st.blockSize →
      ((st.cache.find fun b => b.1 == block).2.isSome ∨
        (∃ out cnt, dev.read st.dev block (List.replicate st.blockSize 0)
          = some (.ok (out, cnt)))) →
      (cacheRead dev st block buf).1 = none) := by
  by_cases hlt : buf.length < st.blockSize
  · refine ⟨by simp [cacheRead, hlt], ?_, ?_⟩
    · intro out cnt h
      rw [show cacheRead dev st block buf
          = (some (.error .bufferTooSmall), st, []) from by simp [cacheRead, hlt]] at h
      simp at h
    · intro hgt
      omega
  · refine ⟨?_, ?_, ?_⟩
    · constructor
      · intro h
        exfalso
        unfold cacheRead at h
        rw [if_neg hlt] at h
        revert h
        cases hfind : (st.cache.find fun b => b.1 == block).2 with
        | some entry =>
          simp only [hfind]
          split <;> simp
        | none =>
          simp only [hfind]
          cases hdev : dev.read st.dev block (List.replicate st.blockSize 0) with
          | none => simp
          | some r =>
            cases r with
            | error e =>
              simp only []
              intro h
              simp at h
              exact hnbts e hdev h
            | ok v =>
              obtain ⟨data, cnt⟩ := v
              simp only []
              cases hwb : writeBackAll dev st.dev
                  (((st.cache.find fun b => b.1 == block).1.insert (block, data)).2) with
              | mk os wlog =>
                cases os with
                | none => simp [hwb]
                | some s2 =>
                  simp only [hwb]
                  split <;> simp
      · intro h
        exact absurd h hlt
    · intro out cnt h
      unfold cacheRead at h
      rw [if_neg hlt] at h
      revert h
      cases hfind : (st.cache.find fun b => b.1 == block).2 with
      | some entry =>
        have hel : entry.2.length = st.blockSize :=
          hcache entry (LruCache.find_some_mem _ _ _ hfind)
        simp only [hfind]
        split
        · rename_i hbl
          intro h
          omega
        · simp
      | none =>
        simp only [hfind]
        cases hdev : dev.read st.dev block (List.replicate st.blockSize 0) with
        | none => simp
        | some r =>
          cases r with
          | error e => simp
          | ok v =>
            obtain ⟨data, cnt2⟩ := v
            have hdl : data.length = st.blockSize := hlp _ _ hdev
            simp only []
            cases hwb : writeBackAll dev st.dev
                (((st.cache.find fun b => b.1 == block).1.insert (block, data)).2) with
            | mk os wlog =>
              cases os with
              | none => simp [hwb]
              | some s2 =>
                simp only [hwb]
                split
                · rename_i hbl
                  intro h
                  omega
                · simp
    · intro hgt hobt
      unfold cacheRead
      rw [if_neg hlt]
      cases hfind : (st.cache.find fun b => b.1 == block).2 with
      | some entry =>
        have hel : entry.2.length = st.blockSize :=
          hcache entry (LruCache.find_some_mem _ _ _ hfind)
        simp only [hfind]
        rw [if_neg (by omega)]
      | none =>
        rcases hobt with hobt | ⟨out, cnt, hdev⟩
        · rw [hfind] at hobt
          simp at hobt
        · have hdl : out.length = st.blockSize := hlp _ _ hdev
          simp only [hfind, hdev]
          cases hwb : writeBackAll dev st.dev
              (((st.cache.find fun b => b.1 == block).1.insert (block, out)).2) with
          | mk os wlog =>
            cases os with
            | none => simp [hwb]
            | some s2 =>
              simp only [hwb]
              rw [if_neg (by omega)]

/-! ## CowBlockDevice lemmas -/

theorem ovLookup_ovInsert_self (m : List (Nat × Bytes)) (k : Nat) (v : Bytes) :
    ovLookup (ovInsert m k v) k = some v := by
  induction m with
  | nil => simp [ovInsert, ovLookup]
  | cons e rest ih =>
    obtain ⟨k', v'⟩ := e
    by_cases h : k' = k
    · subst h
      simp [ovInsert, ovLookup]
    · simp [ovInsert, ovLookup, h, ih]

theorem ovLookup_ovInsert_other (m : List (Nat × Bytes)) (k k' : Nat) (v : Bytes)
    (h : k' ≠ k) : ovLookup (ovInsert m k v) k' = ovLookup m k' := by
  induction m with
  | nil => simp [ovInsert, ovLookup, Ne.symm h]
  | cons e rest ih =>
    obtain ⟨k0, v0⟩ := e
    by_cases h0 : k0 = k
    · subst h0
      simp [ovInsert, ovLookup, Ne.symm h]
    · by_cases h1 : k0 = k'
      · subst h1
        simp [ovInsert, ovLookup, h0]
      · simp [ovInsert, ovLookup, h0, h1, ih]

theorem ovLookup_cons (k0 : Nat) (v0 : Bytes) (rest : List (Nat × Bytes)) (a : Nat) :
    ovLookup ((k0, v0) :: rest) a = if k0 = a then some v0 else ovLookup rest a := rfl

theorem ovLookup_ovUpdate_self (m : List (Nat × Bytes)) (k : Nat) (v w : Bytes)
    (h : ovLookup m k = some w) : ovLookup (ovUpdate m k v) k = some v := by
  induction m with
  | nil => simp [ovLookup] at h
  | cons e rest ih =>
    obtain ⟨k0, v0⟩ := e
    show ovLookup ((if k0 = k then (k, v) else (k0, v0)) :: ovUpdate rest k v) k = some v
    by_cases h0 : k0 = k
    · rw [if_pos h0, ovLookup_cons, if_pos rfl]
    · rw [if_neg h0, ovLookup_cons, if_neg h0]
      rw [ovLookup_cons, if_neg h0] at h
      exact ih h

theorem ovLookup_ovUpdate_other (m : List (Nat × Bytes)) (k k' : Nat) (v : Bytes)
    (h : k' ≠ k) : ovLookup (ovUpdate m k v) k' = ovLookup m k' := by
  induction m with
  | nil => simp [ovUpdate, ovLookup]
  | cons e rest ih =>
    obtain ⟨k0, v0⟩ := e
    show ovLookup ((if k0 = k then (k, v) else (k0, v0)) :: ovUpdate rest k v) k'
      = ovLookup ((k0, v0) :: rest) k'
    by_cases h0 : k0 = k
    · rw [if_pos h0, ovLookup_cons, ovLookup_cons,
        if_neg (Ne.symm h), if_neg (by rw [h0]; exact Ne.symm h)]
      exact ih
    · rw [if_neg h0, ovLookup_cons, ovLookup_cons]
      by_cases h1 : k0 = k'
      · rw [if_pos h1, if_pos h1]
      · rw [if_neg h1, if_neg h1]
        exact ih

/-- `read_block` never changes the overlay and only calls `block_size` on
the wrapped device. -/
theorem cowRead_state {σ : Type} (dev : BlockDev σ) (st : CowState) (a : Nat) (buf : Bytes) :
    (cowRead dev st a buf).2.1 = st ∧ (cowRead dev st a buf).2.2 = [DevCall.blockSize] := by
  unfold cowRead
  split
  · exact ⟨rfl, rfl⟩
  · split
    · split
      · exact ⟨rfl, rfl⟩
      · exact ⟨rfl, rfl⟩
    · exact ⟨rfl, rfl⟩

theorem cowWriteCopy_other_lookup {σ : Type} (dev : BlockDev σ) (st1 : CowState)
    (a addr : Nat) (buf : Bytes) (log : List DevCall) (hne : a ≠ addr) :
    ovLookup (cowWriteCopy dev st1 a buf log).2.1.overlay addr
      = ovLookup st1.overlay addr := by
  unfold cowWriteCopy
  split
  · rfl
  · split
    · exact ovLookup_ovUpdate_other _ _ _ _ (Ne.symm hne)
    · rfl

/-- A `write_block` to some other address does not change what the
overlay holds at `addr`. -/
theorem cowWrite_other_lookup {σ : Type} (dev : BlockDev σ) (s : σ) (st : CowState)
    (a addr : Nat) (buf : Bytes) (hne : a ≠ addr) :
    ovLookup (cowWrite dev s st a buf).2.1.overlay addr = ovLookup st.overlay addr := by
  unfold cowWrite
  by_cases h1 : buf.length < dev.blockSize
  · rw [if_pos h1]
  · rw [if_neg h1]
    by_cases h2 : (ovLookup st.overlay a).isSome
    · rw [if_pos h2]
      exact cowWriteCopy_other_lookup dev st a addr buf [] hne
    · rw [if_neg h2]
      unfold cowLoad
      cases hr : dev.read s a blockNew with
      | none => rfl
      | some r =>
        cases r with
        | error e => rfl
        | ok v =>
          obtain ⟨b, cnt⟩ := v
          show ovLookup (cowWriteCopy dev ⟨ovInsert st.overlay a b⟩ a buf
              [DevCall.readBlock a]).2.1.overlay addr = ovLookup st.overlay addr
          rw [cowWriteCopy_other_lookup dev _ a addr buf _ hne]
          exact ovLookup_ovInsert_other _ _ _ _ (Ne.symm hne)

/-- One step's state keeps `addr` absent if `addr` was absent and the step
is not a write to `addr`. -/
theorem cowStep_preserves_absent {σ : Type} (dev : BlockDev σ) (s : σ) (st : CowState)
    (op : CowOp) (addr : Nat)
    (hop : ∀ B, op ≠ CowOp.write addr B)
    (h : ovLookup st.overlay addr = none) :
    ovLookup (cowStep dev s st op).2.1.overlay addr = none := by
  cases op with
  | read a buf =>
    unfold cowStep
    rw [(cowRead_state dev st a buf).1]
    exact h
  | write a buf =>
    have hne : a ≠ addr := by
      intro hh
      exact hop buf (by rw [hh])
    unfold cowStep
    rw [cowWrite_other_lookup dev s st a addr buf hne]
    exact h

/-- `C3` invariant: addresses never written stay absent from the overlay
across any run. -/
theorem cowRun_not_written {σ : Type} (dev : BlockDev σ) (s : σ) (addr : Nat) :
    ∀ (ops : List CowOp) (st : CowState),
    (∀ B, CowOp.write addr B ∉ ops) →
    ovLookup st.overlay addr = none →
    ovLookup (cowRun dev s st ops).1.overlay addr = none := by
  intro ops
  induction ops with
  | nil =>
    intro st _ h
    simpa [cowRun] using h
  | cons op rest ih =>
    intro st hnw h
    have hstep := cowStep_preserves_absent dev s st op addr
      (by
        intro B hB
        exact hnw B (by rw [← hB]; simp))
      h
    unfold cowRun
    cases hs : cowStep dev s st op with
    | mk o tail =>
      obtain ⟨st1, log⟩ := tail
      rw [hs] at hstep
      cases o with
      | none => exact hstep
      | some u =>
        exact ih st1 (by intro B hB; exact hnw B (by simp [hB])) hstep

/-! ## Claim C3 -/

/-- Claim C3: after any sequence of operations on a fresh `CowBlockDevice`
that never writes to `addr`, a `read_block(addr, buf)` with a large-enough
buffer fails with `NoSuchBlock`, makes no `read_block` call on the backing
device (its log is just the `block_size` query, whatever data the backing
device holds at `addr`), and leaves the overlay unchanged — reads never
materialize a block. -/
theorem cow_read_never_materializes {σ : Type} (dev : BlockDev σ) (s : σ)
    (ops : List CowOp) (addr : Nat) (buf : Bytes)
    (hnw : ∀ B, CowOp.write addr B ∉ ops)
    (hbuf : dev.blockSize ≤ buf.length) :
    cowRead dev (cowRun dev s cowNew ops).1 addr buf
      = (some (.error .noSuchBlock), (cowRun dev s cowNew ops).1,
         [DevCall.blockSize]) := by
  have habs : ovLookup (cowRun dev s cowNew ops).1.overlay addr = none :=
    cowRun_not_written dev s addr ops cowNew hnw rfl
  unfold cowRead
  rw [if_neg (by omega), habs]

/-- Witness for C3: two unrelated operations, then a read of address 7 on
a backing device that does hold data everywhere. -/
theorem cow_read_never_materializes_witness :
    ((∀ B, CowOp.write 7 B ∉ [CowOp.write 2 [1, 1, 1, 1], CowOp.read 5 [0, 0, 0, 0]]) ∧
      (memDev 4 8).blockSize ≤ ([0, 0, 0, 0] : Bytes).length) ∧
    cowRead (memDev 4 8)
        (cowRun (memDev 4 8) (fun _ => [9, 9, 9, 9]) cowNew
          [CowOp.write 2 [1, 1, 1, 1], CowOp.read 5 [0, 0, 0, 0]]).1 7 [0, 0, 0, 0]
      = (some (.error .noSuchBlock),
         (cowRun (memDev 4 8) (fun _ => [9, 9, 9, 9]) cowNew
           [CowOp.write 2 [1, 1, 1, 1], CowOp.read 5 [0, 0, 0, 0]]).1,
         [DevCall.blockSize]) :=
  ⟨⟨by intro B hB; simp at hB, by decide⟩,
   cow_read_never_materializes (memDev 4 8) (fun _ => [9, 9, 9, 9])
     [CowOp.write 2 [1, 1, 1, 1], CowOp.read 5 [0, 0, 0, 0]] 7 [0, 0, 0, 0]
     (by intro B hB; simp at hB) (by decide)⟩

/-! ## CowBlockDevice write lemmas (for C4 and C10) -/

/-- A too-small source buffer is rejected before any materialization. -/
theorem cowWrite_small {σ : Type} (dev : BlockDev σ) (s : σ) (st : CowState)
    (a : Nat) (buf : Bytes) (h : buf.length < dev.blockSize) :
    cowWrite dev s st a buf = (some (.error .bufferTooSmall), st, [DevCall.blockSize]) := by
  unfold cowWrite
  rw [if_pos h]

/-- Writing an already-materialized address touches only `block_size` on
the backing device. -/
theorem cowWrite_present_log {σ : Type} (dev : BlockDev σ) (s : σ) (st : CowState)
    (a : Nat) (buf : Bytes) (hp : (ovLookup st.overlay a).isSome) :
    (cowWrite dev s st a buf).2.2 = [DevCall.blockSize] := by
  unfold cowWrite
  by_cases h1 : buf.length < dev.blockSize
  · rw [if_pos h1]
  · rw [if_neg h1, if_pos hp]
    show (cowWriteCopy dev st a buf []).2.2 = [DevCall.blockSize]
    unfold cowWriteCopy
    split
    · rfl
    · split
      · rfl
      · rfl

/-- Writing an absent address whose backing read succeeds reads the
backing exactly once and leaves the address materialized (even when the
final copy panics). -/
theorem cowWrite_absent_good {σ : Type} (dev : BlockDev σ) (s : σ) (st : CowState)
    (a : Nat) (buf out : Bytes) (cnt : Nat)
    (habs : ovLookup st.overlay a = none)
    (hread : dev.read s a blockNew = some (.ok (out, cnt)))
    (hlen : ¬(buf.length < dev.blockSize)) :
    (cowWrite dev s st a buf).2.2 = [DevCall.blockSize, DevCall.readBlock a] ∧
    (ovLookup (cowWrite dev s st a buf).2.1.overlay a).isSome := by
  unfold cowWrite
  rw [if_neg hlen, if_neg (by rw [habs]; simp)]
  unfold cowLoad
  rw [hread]
  show (cowWriteCopy dev ⟨ovInsert st.overlay a out⟩ a buf [DevCall.readBlock a]).2.2
      = [DevCall.blockSize, DevCall.readBlock a] ∧
    (ovLookup (cowWriteCopy dev ⟨ovInsert st.overlay a out⟩ a buf
      [DevCall.readBlock a]).2.1.overlay a).isSome
  have hlk : ovLookup (⟨ovInsert st.overlay a out⟩ : CowState).overlay a = some out :=
    ovLookup_ovInsert_self _ _ _
  unfold cowWriteCopy
  split
  · rename_i heq
    rw [hlk] at heq
    simp at heq
  · rename_i b heq
    rw [hlk] at heq
    injection heq with heq'
    subst heq'
    split
    · refine ⟨rfl, ?_⟩
      show (ovLookup (ovUpdate (ovInsert st.overlay a out) a
          (buf ++ out.drop dev.blockSize)) a).isSome
      rw [ovLookup_ovUpdate_self _ _ _ out (ovLookup_ovInsert_self _ _ _)]
      rfl
    · refine ⟨rfl, ?_⟩
      show (ovLookup (ovInsert st.overlay a out) a).isSome
      rw [ovLookup_ovInsert_self]
      rfl

/-- Writing an absent address whose backing read fails propagates the
error and leaves the overlay (and the whole state) unchanged. -/
theorem cowWrite_absent_bad {σ : Type} (dev : BlockDev σ) (s : σ) (st : CowState)
    (a : Nat) (buf : Bytes) (e : Err)
    (habs : ovLookup st.overlay a = none)
    (hread : dev.read s a blockNew = some (.error e))
    (hlen : ¬(buf.length < dev.blockSize)) :
    cowWrite dev s st a buf
      = (some (.error e), st, [DevCall.blockSize, DevCall.readBlock a]) := by
  unfold cowWrite
  rw [if_neg hlen, if_neg (by rw [habs]; simp)]
  unfold cowLoad
  rw [hread]

/-- A materialized address stays materialized across any write. -/
theorem cowWrite_preserves_present {σ : Type} (dev : BlockDev σ) (s : σ) (st : CowState)
    (a addr : Nat) (buf : Bytes)
    (hp : (ovLookup st.overlay addr).isSome) :
    (ovLookup (cowWrite dev s st a buf).2.1.overlay addr).isSome := by
  by_cases hne : a = addr
  · subst hne
    obtain ⟨w, hw⟩ := Option.isSome_iff_exists.mp hp
    unfold cowWrite
    by_cases h1 : buf.length < dev.blockSize
    · rw [if_pos h1]
      exact hp
    · rw [if_neg h1, if_pos (by rw [hw]; rfl)]
      show (ovLookup (cowWriteCopy dev st a buf []).2.1.overlay a).isSome
      unfold cowWriteCopy
      split
      · rename_i heq
        rw [hw] at heq
        simp at heq
      · rename_i b heq
        rw [hw] at heq
        injection heq with heq'
        subst heq'
        split
        · show (ovLookup (ovUpdate st.overlay a (buf ++ w.drop dev.blockSize)) a).isSome
          rw [ovLookup_ovUpdate_self _ _ _ w hw]
          rfl
        · exact hp
  · rw [cowWrite_other_lookup dev s st a addr buf hne]
    exact hp

theorem cowStep_preserves_present {σ : Type} (dev : BlockDev σ) (s : σ) (st : CowState)
    (op : CowOp) (addr : Nat)
    (hp : (ovLookup st.overlay addr).isSome) :
    (ovLookup (cowStep dev s st op).2.1.overlay addr).isSome := by
  cases op with
  | read a buf =>
    unfold cowStep
    rw [(cowRead_state dev st a buf).1]
    exact hp
  | write a buf =>
    exact cowWrite_preserves_present dev s st a addr buf hp

/-- Every log entry a `CowBlockDevice` operation makes on the backing
device is a `block_size` query or a `read_block`; the backing device is
never written. -/
theorem cowWrite_log_cases {σ : Type} (dev : BlockDev σ) (s : σ) (st : CowState)
    (a : Nat) (buf : Bytes) :
    (cowWrite dev s st a buf).2.2 = [DevCall.blockSize] ∨
    ((cowWrite dev s st a buf).2.2 = [DevCall.blockSize, DevCall.readBlock a] ∧
      ovLookup st.overlay a = none) := by
  unfold cowWrite
  by_cases h1 : buf.length < dev.blockSize
  · rw [if_pos h1]
    exact Or.inl rfl
  · rw [if_neg h1]
    by_cases h2 : (ovLookup st.overlay a).isSome
    · rw [if_pos h2]
      show (cowWriteCopy dev st a buf []).2.2 = _ ∨ ((cowWriteCopy dev st a buf []).2.2 = _ ∧ _)
      unfold cowWriteCopy
      split
      · exact Or.inl rfl
      · split
        · exact Or.inl rfl
        · exact Or.inl rfl
    · rw [if_neg h2]
      have habs : ovLookup st.overlay a = none := Option.not_isSome_iff_eq_none.mp h2
      unfold cowLoad
      cases hr : dev.read s a blockNew with
      | none => exact Or.inr ⟨rfl, habs⟩
      | some r =>
        cases r with
        | error e => exact Or.inr ⟨rfl, habs⟩
        | ok v =>
          obtain ⟨b, cnt⟩ := v
          show (cowWriteCopy dev ⟨ovInsert st.overlay a b⟩ a buf [DevCall.readBlock a]).2.2 = _
            ∨ ((cowWriteCopy dev ⟨ovInsert st.overlay a b⟩ a buf [DevCall.readBlock a]).2.2 = _ ∧ _)
          unfold cowWriteCopy
          split
          · exact Or.inr ⟨rfl, habs⟩
          · split
            · exact Or.inr ⟨rfl, habs⟩
            · exact Or.inr ⟨rfl, habs⟩

theorem cowStep_log_cases {σ : Type} (dev : BlockDev σ) (s : σ) (st : CowState) (op : CowOp) :
    (cowStep dev s st op).2.2 = [DevCall.blockSize] ∨
    (∃ a, (cowStep dev s st op).2.2 = [DevCall.blockSize, DevCall.readBlock a]) := by
  cases op with
  | read a buf =>
    unfold cowStep
    rw [(cowRead_state dev st a buf).2]
    exact Or.inl rfl
  | write a buf =>
    rcases cowWrite_log_cases dev s st a buf with h | h
    · exact Or.inl h
    · exact Or.inr ⟨a, h.1⟩

theorem countReads_nil (addr : Nat) : countReads [] addr = 0 := rfl

theorem countReads_append (l1 l2 : List DevCall) (addr : Nat) :
    countReads (l1 ++ l2) addr = countReads l1 addr + countReads l2 addr :=
  List.count_append _ _ _

theorem countReads_blockSize (addr : Nat) : countReads [DevCall.blockSize] addr = 0 := by
  simp [countReads, List.count_cons]

theorem countReads_blockSize_read (a addr : Nat) :
    countReads [DevCall.blockSize, DevCall.readBlock a] addr
      = if a = addr then 1 else 0 := by
  by_cases h : a = addr
  · subst h
    simp [countReads, List.count_cons]
  · simp [countReads, List.count_cons, h]

/-- No entry of a `cowRun` log is a `write_block`. -/
theorem cowRun_never_writes {σ : Type} (dev : BlockDev σ) (s : σ) :
    ∀ (ops : List CowOp) (st : CowState) (a : Nat),
    DevCall.writeBlock a ∉ (cowRun dev s st ops).2 := by
  intro ops
  induction ops with
  | nil =>
    intro st a
    simp [cowRun]
  | cons op rest ih =>
    intro st a
    have hlog := cowStep_log_cases dev s st op
    unfold cowRun
    cases hs : cowStep dev s st op with
    | mk o tail =>
      obtain ⟨st1, log⟩ := tail
      rw [hs] at hlog
      simp only [] at hlog
      cases o with
      | none =>
        intro hmem
        rcases hlog with h | ⟨b, h⟩ <;> rw [h] at hmem <;> simp at hmem
      | some u =>
        intro hmem
        rw [List.mem_append] at hmem
        rcases hmem with hmem | hmem
        · rcases hlog with h | ⟨b, h⟩ <;> rw [h] at hmem <;> simp at hmem
        · exact ih st1 a hmem

/-- A materialized address is never read from the backing device again. -/
theorem cowRun_reads_present {σ : Type} (dev : BlockDev σ) (s : σ) (addr : Nat) :
    ∀ (ops : List CowOp) (st : CowState),
    (ovLookup st.overlay addr).isSome →
    countReads (cowRun dev s st ops).2 addr = 0 := by
  intro ops
  induction ops with
  | nil =>
    intro st _
    rfl
  | cons op rest ih =>
    intro st hp
    have hmono := cowStep_preserves_present dev s st op addr hp
    have hcount : countReads (cowStep dev s st op).2.2 addr = 0 := by
      rcases cowStep_log_cases dev s st op with h | ⟨a, h⟩
      · rw [h, countReads_blockSize]
      · rw [h, countReads_blockSize_read]
        have hne : a ≠ addr := by
          intro hh
          subst hh
          cases op with
          | read a2 buf =>
            have := (cowRead_state dev st a2 buf).2
            unfold cowStep at h
            rw [this] at h
            simp at h
          | write a2 buf =>
            rcases cowWrite_log_cases dev s st a2 buf with h2 | h2
            · unfold cowStep at h
              rw [h2] at h
              simp at h
            · unfold cowStep at h
              rw [h2.1] at h
              simp at h
              rw [h] at h2
              rw [h2.2] at hp
              simp at hp
        rw [if_neg hne]
    unfold cowRun
    cases hs : cowStep dev s st op with
    | mk o tail =>
      obtain ⟨st1, log⟩ := tail
      rw [hs] at hcount hmono
      cases o with
      | none => exact hcount
      | some u =>
        show countReads (log ++ (cowRun dev s st1 rest).2) addr = 0
        rw [countReads_append, hcount, ih st1 hmono]

/-- With a backing device whose reads succeed, a run reads each address at
most once. -/
theorem cowRun_reads_at_most_one {σ : Type} (dev : BlockDev σ) (s : σ) (addr : Nat)
    (hgood : ∀ a, ∃ out cnt, dev.read s a blockNew = some (.ok (out, cnt))) :
    ∀ (ops : List CowOp) (st : CowState),
    countReads (cowRun dev s st ops).2 addr ≤ 1 := by
  intro ops
  induction ops with
  | nil =>
    intro st
    show countReads [] addr ≤ 1
    rw [countReads_nil]
    omega
  | cons op rest ih =>
    intro st
    by_cases hp : (ovLookup st.overlay addr).isSome
    · rw [cowRun_reads_present dev s addr (op :: rest) st hp]
      omega
    · unfold cowRun
      cases op with
      | read a buf =>
        have hstep : cowStep dev s st (CowOp.read a buf)
            = ((cowRead dev st a buf).1.map fun _ => (),
               (cowRead dev st a buf).2.1, (cowRead dev st a buf).2.2) := rfl
        rw [hstep, (cowRead_state dev st a buf).1, (cowRead_state dev st a buf).2]
        cases hres : (cowRead dev st a buf).1 with
        | none =>
          show countReads [DevCall.blockSize] addr ≤ 1
          rw [countReads_blockSize]
          omega
        | some v =>
          show countReads ([DevCall.blockSize] ++ (cowRun dev s st rest).2) addr ≤ 1
          rw [countReads_append, countReads_blockSize]
          have := ih st
          omega
      | write a buf =>
        have hstep : cowStep dev s st (CowOp.write a buf)
            = ((cowWrite dev s st a buf).1.map fun _ => (),
               (cowWrite dev s st a buf).2.1, (cowWrite dev s st a buf).2.2) := rfl
        rw [hstep]
        by_cases ha : a = addr
        · subst ha
          by_cases h1 : buf.length < dev.blockSize
          · rw [cowWrite_small dev s st a buf h1]
            show countReads ([DevCall.blockSize] ++ (cowRun dev s st rest).2) a ≤ 1
            rw [countReads_append, countReads_blockSize]
            have := ih st
            omega
          · obtain ⟨out, cnt, hread⟩ := hgood a
            have hgd := cowWrite_absent_good dev s st a buf out cnt
              (Option.not_isSome_iff_eq_none.mp hp) hread h1
            cases hres : (cowWrite dev s st a buf).1 with
            | none =>
              show countReads (cowWrite dev s st a buf).2.2 a ≤ 1
              rw [hgd.1, countReads_blockSize_read, if_pos rfl]
            | some v =>
              show countReads ((cowWrite dev s st a buf).2.2
                  ++ (cowRun dev s (cowWrite dev s st a buf).2.1 rest).2) a ≤ 1
              rw [countReads_append, hgd.1, countReads_blockSize_read, if_pos rfl,
                cowRun_reads_present dev s a rest _ hgd.2]
        · have hcount : countReads (cowWrite dev s st a buf).2.2 addr = 0 := by
            rcases cowWrite_log_cases dev s st a buf with h | h
            · rw [h, countReads_blockSize]
            · rw [h.1, countReads_blockSize_read, if_neg ha]
          cases hres : (cowWrite dev s st a buf).1 with
          | none =>
            show countReads (cowWrite dev s st a buf).2.2 addr ≤ 1
            omega
          | some v =>
            show countReads ((cowWrite dev s st a buf).2.2
                ++ (cowRun dev s (cowWrite dev s st a buf).2.1 rest).2) addr ≤ 1
            rw [countReads_append, hcount]
            have := ih (cowWrite dev s st a buf).2.1
            omega

/-! ## Claim C4 -/

/-- Claim C4 (amended): a `write_block` to an address absent from the
overlay reads the backing device exactly once for that address and leaves
it materialized; if that backing read fails the error is propagated and
the overlay map (the whole state) is unchanged; the backing device is
never written by any sequence of operations; and, provided the backing
reads succeed, any sequence of operations reads the backing at most once
per address.  (Without that proviso, a failed materialization may be
retried by a later write, reading the same address again — see the
counterexample.) -/
theorem cow_write_materializes_once {σ : Type} (dev : BlockDev σ) (s : σ) :
    (∀ (st : CowState) (a : Nat) (buf out : Bytes) (cnt : Nat),
      ovLookup st.overlay a = none →
      dev.read s a blockNew = some (.ok (out, cnt)) →
      ¬(buf.length < dev.blockSize) →
      (cowWrite dev s st a buf).2.2 = [DevCall.blockSize, DevCall.readBlock a] ∧
      (ovLookup (cowWrite dev s st a buf).2.1.overlay a).isSome) ∧
    (∀ (st : CowState) (a : Nat) (buf : Bytes) (e : Err),
      ovLookup st.overlay a = none →
      dev.read s a blockNew = some (.error e) →
      ¬(buf.length < dev.blockSize) →
      cowWrite dev s st a buf
        = (some (.error e), st, [DevCall.blockSize, DevCall.readBlock a])) ∧
    (∀ (ops : List CowOp) (st : CowState) (a : Nat),
      DevCall.writeBlock a ∉ (cowRun dev s st ops).2) ∧
    ((∀ a, ∃ out cnt, dev.read s a blockNew = some (.ok (out, cnt))) →
      ∀ (ops : List CowOp) (st : CowState) (addr : Nat),
      countReads (cowRun dev s st ops).2 addr ≤ 1) :=
  ⟨fun st a buf out cnt h1 h2 h3 => cowWrite_absent_good dev s st a buf out cnt h1 h2 h3,
   fun st a buf e h1 h2 h3 => cowWrite_absent_bad dev s st a buf e h1 h2 h3,
   fun ops st a => cowRun_never_writes dev s ops st a,
   fun hgood ops st addr => cowRun_reads_at_most_one dev s addr hgood ops st⟩

/-- Claim C4, as stated, is false: with a backing device whose reads
fail, two writes to address 0 each attempt (and fail) materialization, so
the backing device is read twice for address 0 — more than "at most once
per address". -/
theorem cow_failed_materialization_rereads :
    (cowRun (failReadDev 4 100) () cowNew
        [CowOp.write 0 [1, 1, 1, 1], CowOp.write 0 [1, 1, 1, 1]]).2
      = [DevCall.blockSize, DevCall.readBlock 0, DevCall.blockSize, DevCall.readBlock 0] ∧
    countReads (cowRun (failReadDev 4 100) () cowNew
        [CowOp.write 0 [1, 1, 1, 1], CowOp.write 0 [1, 1, 1, 1]]).2 0 = 2 := by
  constructor
  · rfl
  · rfl

/-- Witness for the amended C4 on a memory-backed device. -/
theorem cow_write_materializes_once_witness :
    (ovLookup cowNew.overlay 3 = none ∧
     (memDev 4 8).read (fun _ => [9, 9, 9, 9]) 3 blockNew
        = some (.ok ([9, 9, 9, 9] ++ blockNew.drop 4, 4)) ∧
     ¬(([7, 7, 7, 7] : Bytes).length < (memDev 4 8).blockSize)) ∧
    ((cowWrite (memDev 4 8) (fun _ => [9, 9, 9, 9]) cowNew 3 [7, 7, 7, 7]).2.2
        = [DevCall.blockSize, DevCall.readBlock 3] ∧
     (ovLookup (cowWrite (memDev 4 8) (fun _ => [9, 9, 9, 9]) cowNew 3
        [7, 7, 7, 7]).2.1.overlay 3).isSome) :=
  ⟨⟨rfl, rfl, by decide⟩,
   (cow_write_materializes_once (memDev 4 8) (fun _ => [9, 9, 9, 9])).1
     cowNew 3 [7, 7, 7, 7] ([9, 9, 9, 9] ++ blockNew.drop 4) 4 rfl rfl (by decide)⟩

/-! ## Claim C10 -/

/-- Claim C10 (amended): the overlay stores every block in a fixed
512-byte buffer; when the wrapped device's `block_size` differs from 512,
`read_block` of a materialized address (with a large-enough buffer) panics
on the length-mismatched copy; `write_block` on a materialized address
panics whenever the source buffer is longer than `block_size`; but a
source buffer shorter than `block_size` is rejected with `BufferTooSmall`
before any copy — it does not panic. -/
theorem cow_fixed_512_buffer {σ : Type} (dev : BlockDev σ) (s : σ) (st : CowState)
    (addr : Nat) (b buf : Bytes) :
    (dev.blockSize ≠ 512 → ovLookup st.overlay addr = some b → b.length = 512 →
      dev.blockSize ≤ buf.length →
      cowRead dev st addr buf = (none, st, [DevCall.blockSize])) ∧
    (ovLookup st.overlay addr = some b → buf.length > dev.blockSize →
      (cowWrite dev s st addr buf).1 = none) ∧
    (buf.length < dev.blockSize →
      cowWrite dev s st addr buf
        = (some (.error .bufferTooSmall), st, [DevCall.blockSize])) := by
  refine ⟨?_, ?_, ?_⟩
  · intro h512 hlk hbl hbuf
    unfold cowRead
    rw [if_neg (by omega), hlk]
    show (if dev.blockSize = b.length then
        (some (.ok (b.take dev.blockSize ++ buf.drop dev.blockSize, dev.blockSize)),
         st, [DevCall.blockSize])
      else (none, st, [DevCall.blockSize]))
      = ((none : PRes (Bytes × Nat)), st, [DevCall.blockSize])
    rw [if_neg (by rw [hbl]; exact h512)]
  · intro hlk hgt
    unfold cowWrite
    rw [if_neg (by omega), if_pos (by rw [hlk]; rfl)]
    show (cowWriteCopy dev st addr buf []).1 = none
    unfold cowWriteCopy
    split
    · rfl
    · rename_i b2 heq
      rw [if_neg (by
        intro hc
        omega)]
  · intro hlt
    exact cowWrite_small dev s st addr buf hlt

/-- Claim C10, as stated, is false about short writes: on a `block_size =
4` device with address 0 materialized, `write_block(0, [1, 1])` has a
source length different from `block_size`, yet it returns
`Err(BufferTooSmall)` — it does not panic. -/
theorem cow_short_write_errors :
    (cowWrite (memDev 4 8) (fun _ => [9, 9, 9, 9])
        (cowWrite (memDev 4 8) (fun _ => [9, 9, 9, 9]) cowNew 0 [1, 1, 1, 1]).2.1
        0 [1, 1]).1 = some (.error .bufferTooSmall) ∧
    (some (Except.error Err.bufferTooSmall) : PRes Nat) ≠ none := by
  constructor
  · rfl
  · simp

/-- Witness for the amended C10 at `block_size = 4` with address 0
materialized by a prior write. -/
theorem cow_fixed_512_buffer_witness :
    ((memDev 4 8).blockSize ≠ 512 ∧
     ovLookup (cowWrite (memDev 4 8) (fun _ => [9, 9, 9, 9]) cowNew 0
        [1, 1, 1, 1]).2.1.overlay 0 = some ([1, 1, 1, 1] ++ List.replicate 508 0) ∧
     ([1, 1, 1, 1] ++ List.replicate 508 0 : Bytes).length = 512 ∧
     (memDev 4 8).blockSize ≤ ([0, 0, 0, 0, 0] : Bytes).length ∧
     ([0, 0, 0, 0, 0] : Bytes).length > (memDev 4 8).blockSize) ∧
    ((memDev 4 8).blockSize ≠ 512 →
      ovLookup (cowWrite (memDev 4 8) (fun _ => [9, 9, 9, 9]) cowNew 0
          [1, 1, 1, 1]).2.1.overlay 0 = some ([1, 1, 1, 1] ++ List.replicate 508 0) →
      ([1, 1, 1, 1] ++ List.replicate 508 0 : Bytes).length = 512 →
      (memDev 4 8).blockSize ≤ ([0, 0, 0, 0, 0] : Bytes).length →
      cowRead (memDev 4 8)
          (cowWrite (memDev 4 8) (fun _ => [9, 9, 9, 9]) cowNew 0 [1, 1, 1, 1]).2.1
          0 [0, 0, 0, 0, 0]
        = (none,
           (cowWrite (memDev 4 8) (fun _ => [9, 9, 9, 9]) cowNew 0 [1, 1, 1, 1]).2.1,
           [DevCall.blockSize])) ∧
    (ovLookup (cowWrite (memDev 4 8) (fun _ => [9, 9, 9, 9]) cowNew 0
          [1, 1, 1, 1]).2.1.overlay 0 = some ([1, 1, 1, 1] ++ List.replicate 508 0) →
      ([0, 0, 0, 0, 0] : Bytes).length > (memDev 4 8).blockSize →
      (cowWrite (memDev 4 8) (fun _ => [9, 9, 9, 9])
          (cowWrite (memDev 4 8) (fun _ => [9, 9, 9, 9]) cowNew 0 [1, 1, 1, 1]).2.1
          0 [0, 0, 0, 0, 0]).1 = none) ∧
    (([0, 0, 0, 0, 0] : Bytes).length < (memDev 4 8).blockSize →
      cowWrite (memDev 4 8) (fun _ => [9, 9, 9, 9])
          (cowWrite (memDev 4 8) (fun _ => [9, 9, 9, 9]) cowNew 0 [1, 1, 1, 1]).2.1
          0 [0, 0, 0, 0, 0]
        = (some (.error .bufferTooSmall),
           (cowWrite (memDev 4 8) (fun _ => [9, 9, 9, 9]) cowNew 0 [1, 1, 1, 1]).2.1,
           [DevCall.blockSize])) :=
  ⟨⟨by decide, rfl, by decide, by decide, by decide⟩,
   (cow_fixed_512_buffer (memDev 4 8) (fun _ => [9, 9, 9, 9])
     (cowWrite (memDev 4 8) (fun _ => [9, 9, 9, 9]) cowNew 0 [1, 1, 1, 1]).2.1
     0 ([1, 1, 1, 1] ++ List.replicate 508 0) [0, 0, 0, 0, 0])⟩

/-! ## Claim C7 -/

theorem writeBackAll_log_writes {σ : Type} (dev : BlockDev σ) :
    ∀ (s : σ) (l : List (Nat × Bytes)),
    ∀ c ∈ (writeBackAll dev s l).2, ∃ a, c = DevCall.writeBlock a := by
  intro s l
  induction l generalizing s with
  | nil =>
    intro c hc
    simp [writeBackAll] at hc
  | cons e rest ih =>
    obtain ⟨num, data⟩ := e
    intro c hc
    unfold writeBackAll at hc
    revert hc
    cases hw : dev.write s num data with
    | none =>
      intro hc
      simp at hc
      exact ⟨num, hc⟩
    | some r =>
      cases r with
      | error er =>
        intro hc
        simp at hc
        rcases hc with hc | hc
        · exact ⟨num, hc⟩
        · exact ih s c hc
      | ok v =>
        obtain ⟨s2, cnt⟩ := v
        intro hc
        simp at hc
        rcases hc with hc | hc
        · exact ⟨num, hc⟩
        · exact ih s2 c hc

theorem cacheRead_miss {σ : Type} (dev : BlockDev σ) (st : CacheState σ) (a : Nat)
    (out : Bytes) (cnt : Nat)
    (hfind : st.cache.find (fun b => b.1 == a) = (st.cache, none))
    (hlen : st.cache.data.length < st.cache.maxSize)
    (hread : dev.read st.dev a (List.replicate st.blockSize 0) = some (.ok (out, cnt)))
    (hout : out.length = st.blockSize) :
    cacheRead dev st a (List.replicate st.blockSize 0)
      = (some (.ok (out, st.blockSize)),
         ⟨⟨st.cache.maxSize, (a, out) :: st.cache.data⟩, st.blockSize, st.dev⟩,
         [DevCall.readBlock a]) := by
  unfold cacheRead
  rw [if_neg (by simp)]
  simp only [hfind, hread]
  unfold LruCache.insert
  rw [if_neg (by omega)]
  unfold writeBackAll
  simp [hout]

theorem cacheRead_hit {σ : Type} (dev : BlockDev σ) (st : CacheState σ) (a : Nat)
    (entry : Nat × Bytes) (c' : LruCache (Nat × Bytes))
    (hfind : st.cache.find (fun b => b.1 == a) = (c', some entry))
    (hlen : entry.2.length = st.blockSize) :
    cacheRead dev st a (List.replicate st.blockSize 0)
      = (some (.ok (entry.2, st.blockSize)), ⟨c', st.blockSize, st.dev⟩, []) := by
  unfold cacheRead
  rw [if_neg (by simp)]
  simp only [hfind]
  simp [hlen]

theorem cacheReadSeq_cons_ok {σ : Type} (dev : BlockDev σ) (st st1 : CacheState σ)
    (a : Nat) (rest : List Nat) (v : Except Err (Bytes × Nat)) (log : List DevCall)
    (hstep : cacheRead dev st a (List.replicate st.blockSize 0) = (some v, st1, log)) :
    cacheReadSeq dev st (a :: rest)
      = ((cacheReadSeq dev st1 rest).1, log ++ (cacheReadSeq dev st1 rest).2) := by
  simp only [cacheReadSeq]
  rw [hstep]

/-- Claim C7 (amended): on a freshly constructed `BlockCache` of capacity
M ≥ 4 over a backing device whose reads succeed (any failing read is
neither cached nor counted once — see the counterexample), reading the
address sequence `[1,2,3,1,2,3,4]` with `block_size`-byte buffers makes
exactly 4 backing `read_block` calls, once each for 1, 2, 3, 4 and in that
order; over the whole lifetime the backing `block_size()` is queried
exactly once (at construction), `BlockCache::block_size()` afterwards
returns that captured value without any device call, and teardown only
ever issues `write_block` calls. -/
theorem cache_hit_miss_accounting {σ : Type} (dev : BlockDev σ) (s : σ) (M : Nat)
    (outs : Nat → Bytes) (cnts : Nat → Nat)
    (hM : 4 ≤ M)
    (hreads : ∀ a, dev.read s a (List.replicate dev.blockSize 0)
        = some (.ok (outs a, cnts a)))
    (hlen : ∀ a, (outs a).length = dev.blockSize) :
    (cacheNew dev s M).2
        ++ (cacheReadSeq dev (cacheNew dev s M).1 [1, 2, 3, 1, 2, 3, 4]).2
      = [DevCall.blockSize, DevCall.readBlock 1, DevCall.readBlock 2,
         DevCall.readBlock 3, DevCall.readBlock 4] ∧
    cacheBlockSize (cacheReadSeq dev (cacheNew dev s M).1 [1, 2, 3, 1, 2, 3, 4]).1
      = (dev.blockSize, []) ∧
    (∀ c ∈ (cacheDrop dev
        (cacheReadSeq dev (cacheNew dev s M).1 [1, 2, 3, 1, 2, 3, 4]).1).2,
      ∃ a, c = DevCall.writeBlock a) := by
  have e1 : cacheRead dev (⟨⟨M, []⟩, dev.blockSize, s⟩ : CacheState σ) 1
      (List.replicate dev.blockSize 0)
      = (some (.ok (outs 1, dev.blockSize)),
         (⟨⟨M, [(1, outs 1)]⟩, dev.blockSize, s⟩ : CacheState σ),
         [DevCall.readBlock 1]) :=
    cacheRead_miss dev _ 1 (outs 1) (cnts 1) rfl (by simp; omega) (hreads 1) (hlen 1)
  have e2 : cacheRead dev (⟨⟨M, [(1, outs 1)]⟩, dev.blockSize, s⟩ : CacheState σ) 2
      (List.replicate dev.blockSize 0)
      = (some (.ok (outs 2, dev.blockSize)),
         (⟨⟨M, [(2, outs 2), (1, outs 1)]⟩, dev.blockSize, s⟩ : CacheState σ),
         [DevCall.readBlock 2]) :=
    cacheRead_miss dev _ 2 (outs 2) (cnts 2) rfl (by simp; omega) (hreads 2) (hlen 2)
  have e3 : cacheRead dev
      (⟨⟨M, [(2, outs 2), (1, outs 1)]⟩, dev.blockSize, s⟩ : CacheState σ) 3
      (List.replicate dev.blockSize 0)
      = (some (.ok (outs 3, dev.blockSize)),
         (⟨⟨M, [(3, outs 3), (2, outs 2), (1, outs 1)]⟩, dev.blockSize, s⟩ : CacheState σ),
         [DevCall.readBlock 3]) :=
    cacheRead_miss dev _ 3 (outs 3) (cnts 3) rfl (by simp; omega) (hreads 3) (hlen 3)
  have e4 : cacheRead dev
      (⟨⟨M, [(3, outs 3), (2, outs 2), (1, outs 1)]⟩, dev.blockSize, s⟩ : CacheState σ) 1
      (List.replicate dev.blockSize 0)
      = (some (.ok (outs 1, dev.blockSize)),
         (⟨⟨M, [(1, outs 1), (3, outs 3), (2, outs 2)]⟩, dev.blockSize, s⟩ : CacheState σ),
         []) :=
    cacheRead_hit dev _ 1 (1, outs 1) _ rfl (hlen 1)
  have e5 : cacheRead dev
      (⟨⟨M, [(1, outs 1), (3, outs 3), (2, outs 2)]⟩, dev.blockSize, s⟩ : CacheState σ) 2
      (List.replicate dev.blockSize 0)
      = (some (.ok (outs 2, dev.blockSize)),
         (⟨⟨M, [(2, outs 2), (1, outs 1), (3, outs 3)]⟩, dev.blockSize, s⟩ : CacheState σ),
         []) :=
    cacheRead_hit dev _ 2 (2, outs 2) _ rfl (hlen 2)
  have e6 : cacheRead dev
      (⟨⟨M, [(2, outs 2), (1, outs 1), (3, outs 3)]⟩, dev.blockSize, s⟩ : CacheState σ) 3
      (List.replicate dev.blockSize 0)
      = (some (.ok (outs 3, dev.blockSize)),
         (⟨⟨M, [(3, outs 3), (2, outs 2), (1, outs 1)]⟩, dev.blockSize, s⟩ : CacheState σ),
         []) :=
    cacheRead_hit dev _ 3 (3, outs 3) _ rfl (hlen 3)
  have e7 : cacheRead dev
      (⟨⟨M, [(3, outs 3), (2, outs 2), (1, outs 1)]⟩, dev.blockSize, s⟩ : CacheState σ) 4
      (List.replicate dev.blockSize 0)
      = (some (.ok (outs 4, dev.blockSize)),
         (⟨⟨M, [(4, outs 4), (3, outs 3), (2, outs 2), (1, outs 1)]⟩,
           dev.blockSize, s⟩ : CacheState σ),
         [DevCall.readBlock 4]) :=
    cacheRead_miss dev _ 4 (outs 4) (cnts 4) rfl (by simp; omega) (hreads 4) (hlen 4)
  have hnew : (cacheNew dev s M).1 = (⟨⟨M, []⟩, dev.blockSize, s⟩ : CacheState σ) := rfl
  have hnew2 : (cacheNew dev s M).2 = [DevCall.blockSize] := rfl
  have q1 := cacheReadSeq_cons_ok dev _ _ 1 [2, 3, 1, 2, 3, 4] _ _ e1
  have q2 := cacheReadSeq_cons_ok dev _ _ 2 [3, 1, 2, 3, 4] _ _ e2
  have q3 := cacheReadSeq_cons_ok dev _ _ 3 [1, 2, 3, 4] _ _ e3
  have q4 := cacheReadSeq_cons_ok dev _ _ 1 [2, 3, 4] _ _ e4
  have q5 := cacheReadSeq_cons_ok dev _ _ 2 [3, 4] _ _ e5
  have q6 := cacheReadSeq_cons_ok dev _ _ 3 [4] _ _ e6
  have q7 := cacheReadSeq_cons_ok dev _ _ 4 [] _ _ e7
  have q8 : cacheReadSeq dev
      (⟨⟨M, [(4, outs 4), (3, outs 3), (2, outs 2), (1, outs 1)]⟩,
        dev.blockSize, s⟩ : CacheState σ) ([] : List Nat)
      = (⟨⟨M, [(4, outs 4), (3, outs 3), (2, outs 2), (1, outs 1)]⟩,
          dev.blockSize, s⟩, []) := rfl
  rw [hnew, hnew2, q1, q2, q3, q4, q5, q6, q7, q8]
  refine ⟨rfl, rfl, ?_⟩
  intro c hc
  exact writeBackAll_log_writes dev s _ c hc

/-- Claim C7, as stated, is false for an arbitrary backing device: if the
backing reads fail, nothing is ever cached, and the same seven-address
sequence causes 7 backing `read_block` calls — address 1 alone is read
twice, not once. -/
theorem cache_failing_device_reads_seven :
    (cacheNew (failReadDev 4 100) () 10).2
        ++ (cacheReadSeq (failReadDev 4 100) (cacheNew (failReadDev 4 100) () 10).1
            [1, 2, 3, 1, 2, 3, 4]).2
      = [DevCall.blockSize, DevCall.readBlock 1, DevCall.readBlock 2,
         DevCall.readBlock 3, DevCall.readBlock 1, DevCall.readBlock 2,
         DevCall.readBlock 3, DevCall.readBlock 4] ∧
    countReads ((cacheNew (failReadDev 4 100) () 10).2
        ++ (cacheReadSeq (failReadDev 4 100) (cacheNew (failReadDev 4 100) () 10).1
            [1, 2, 3, 1, 2, 3, 4]).2) 1 = 2 := by
  constructor
  · rfl
  · rfl

/-- Witness for the amended C7: capacity 4 over a memory-style device
whose block `a` reads as four `a + 1` bytes. -/
theorem cache_hit_miss_accounting_witness :
    ((4 : Nat) ≤ 4 ∧
     (∀ a, (memDev 4 16).read (fun b => List.replicate 4 (b + 1)) a
        (List.replicate (memDev 4 16).blockSize 0)
        = some (.ok (List.replicate 4 (a + 1), 4))) ∧
     (∀ a, (List.replicate 4 (a + 1) : Bytes).length = (memDev 4 16).blockSize)) ∧
    ((cacheNew (memDev 4 16) (fun b => List.replicate 4 (b + 1)) 4).2
        ++ (cacheReadSeq (memDev 4 16)
            (cacheNew (memDev 4 16) (fun b => List.replicate 4 (b + 1)) 4).1
            [1, 2, 3, 1, 2, 3, 4]).2
      = [DevCall.blockSize, DevCall.readBlock 1, DevCall.readBlock 2,
         DevCall.readBlock 3, DevCall.readBlock 4] ∧
     cacheBlockSize (cacheReadSeq (memDev 4 16)
          (cacheNew (memDev 4 16) (fun b => List.replicate 4 (b + 1)) 4).1
          [1, 2, 3, 1, 2, 3, 4]).1
        = ((memDev 4 16).blockSize, []) ∧
     (∀ c ∈ (cacheDrop (memDev 4 16)
          (cacheReadSeq (memDev 4 16)
            (cacheNew (memDev 4 16) (fun b => List.replicate 4 (b + 1)) 4).1
            [1, 2, 3, 1, 2, 3, 4]).1).2,
        ∃ a, c = DevCall.writeBlock a)) :=
  ⟨⟨by decide, fun a => by simp [memDev], fun a => by simp [memDev]⟩,
   cache_hit_miss_accounting (memDev 4 16) (fun b => List.replicate 4 (b + 1)) 4
     (fun a => List.replicate 4 (a + 1)) (fun _ => 4) (by decide)
     (fun a => by simp [memDev]) (fun a => by simp [memDev])⟩

/-! ## Claim C2 -/

theorem LruCache.find_no_match {V : Type} (c : LruCache V) (p : V → Bool)
    (h : ∀ v ∈ c.data, p v = false) : c.find p = (c, none) := by
  unfold LruCache.find
  rw [List.findIdx?_eq_none_iff.mpr h]

theorem writeBackAll_isSome {σ : Type} (dev : BlockDev σ)
    (hw : ∀ (s2 : σ) (a : Nat) (b : Bytes), dev.write s2 a b ≠ none) :
    ∀ (s : σ) (l : List (Nat × Bytes)), ∃ s2, (writeBackAll dev s l).1 = some s2 := by
  intro s l
  induction l generalizing s with
  | nil => exact ⟨s, rfl⟩
  | cons e rest ih =>
    obtain ⟨num, data⟩ := e
    unfold writeBackAll
    cases hwr : dev.write s num data with
    | none => exact absurd hwr (hw s num data)
    | some r =>
      cases r with
      | error er => exact ih s
      | ok v =>
        obtain ⟨s2, cnt⟩ := v
        exact ih s2

/-- Round-trip through `BlockCache` when `addr` is not cached: the write
goes through to the device, the following read misses the cache, fetches
the just-written block from the device and returns it. -/
theorem cache_round_trip_uncached {σ : Type} (dev : BlockDev σ) (st : CacheState σ)
    (addr : Nat) (B buf : Bytes) (cnt cnt2 : Nat) (s' : σ)
    (hbs : st.blockSize = dev.blockSize)
    (hB : B.length = dev.blockSize)
    (hbuf : buf.length = dev.blockSize)
    (habs : ∀ e ∈ st.cache.data, ((e : Nat × Bytes).1 == addr) = false)
    (hwnp : ∀ (s2 : σ) (a : Nat) (b : Bytes), dev.write s2 a b ≠ none)
    (hw : dev.write st.dev addr B = some (.ok (s', cnt)))
    (hrt : dev.read s' addr (List.replicate dev.blockSize 0) = some (.ok (B, cnt2))) :
    ∃ st2 log, cacheRead dev (cacheWrite dev st addr B).2.1 addr buf
      = (some (.ok (B, buf.length)), st2, log) := by
  have hwrite : (cacheWrite dev st addr B).2.1 = { st with dev := s' } := by
    unfold cacheWrite
    rw [hw]
  rw [hwrite]
  unfold cacheRead
  rw [if_neg (by
    show ¬(buf.length < ({ st with dev := s' } : CacheState σ).blockSize)
    have : ({ st with dev := s' } : CacheState σ).blockSize = st.blockSize := rfl
    rw [this, hbs]
    omega)]
  have hfind : ({ st with dev := s' } : CacheState σ).cache.find (fun b => b.1 == addr)
      = (st.cache, none) := by
    have : ({ st with dev := s' } : CacheState σ).cache = st.cache := rfl
    rw [this]
    exact LruCache.find_no_match st.cache _ habs
  simp only [hfind]
  have hread : dev.read ({ st with dev := s' } : CacheState σ).dev addr
      (List.replicate ({ st with dev := s' } : CacheState σ).blockSize 0)
      = some (.ok (B, cnt2)) := by
    have h1 : ({ st with dev := s' } : CacheState σ).dev = s' := rfl
    have h2 : ({ st with dev := s' } : CacheState σ).blockSize = st.blockSize := rfl
    rw [h1, h2, hbs]
    exact hrt
  simp only [hread]
  obtain ⟨s2, hs2⟩ := writeBackAll_isSome dev hwnp
    ({ st with dev := s' } : CacheState σ).dev ((st.cache.insert (addr, B)).2)
  cases hwb : writeBackAll dev ({ st with dev := s' } : CacheState σ).dev
      ((st.cache.insert (addr, B)).2) with
  | mk os wlog =>
    rw [hwb] at hs2
    simp only [] at hs2
    subst hs2
    simp only [hwb]
    rw [if_pos (by rw [hbuf, hB])]
    exact ⟨_, _, rfl⟩

/-- The copy step of a successful `CowBlockDevice::write_block`. -/
theorem cowWriteCopy_ok_eq {σ : Type} (dev : BlockDev σ) (st1 : CowState) (addr : Nat)
    (B b0 : Bytes) (log : List DevCall) (cnt : Nat)
    (hb0 : ovLookup st1.overlay addr = some b0)
    (hw : (cowWriteCopy dev st1 addr B log).1 = some (.ok cnt)) :
    cowWriteCopy dev st1 addr B log
      = (some (.ok dev.blockSize),
         ⟨ovUpdate st1.overlay addr (B ++ b0.drop dev.blockSize)⟩,
         .blockSize :: log) ∧ B.length = dev.blockSize := by
  unfold cowWriteCopy at hw ⊢
  split at hw
  · rename_i heq
    rw [hb0] at heq
    cases heq
  · rename_i b heq
    rw [hb0] at heq
    injection heq with heq'
    subst heq'
    split at hw
    · rename_i hc
      rw [if_pos hc]
      exact ⟨rfl, hc.2⟩
    · simp at hw

/-- Reading back an overlay entry that was just overwritten with `B`
(block size 512). -/
theorem cowRead_updated {σ : Type} (dev : BlockDev σ) (m : List (Nat × Bytes))
    (addr : Nat) (B b0 buf : Bytes)
    (h512 : dev.blockSize = 512) (hb0l : b0.length = 512)
    (hB : B.length = dev.blockSize) (hbuf : 512 ≤ buf.length)
    (hlk : ovLookup m addr = some b0) :
    (cowRead dev ⟨ovUpdate m addr (B ++ b0.drop dev.blockSize)⟩ addr buf).1
      = some (.ok (B ++ buf.drop 512, 512)) := by
  unfold cowRead
  rw [if_neg (by rw [h512]; omega)]
  have hupd : ovLookup
      (⟨ovUpdate m addr (B ++ b0.drop dev.blockSize)⟩ : CowState).overlay addr
      = some (B ++ b0.drop dev.blockSize) := ovLookup_ovUpdate_self m addr _ b0 hlk
  rw [hupd]
  have hdrop : b0.drop dev.blockSize = [] := by
    apply List.drop_eq_nil_of_le
    rw [hb0l, h512]
  have hvlen : (B ++ b0.drop dev.blockSize).length = dev.blockSize := by
    rw [hdrop, List.append_nil, hB]
  show (if dev.blockSize = (B ++ b0.drop dev.blockSize).length then
      ((some (Except.ok ((B ++ b0.drop dev.blockSize).take dev.blockSize
          ++ buf.drop dev.blockSize, dev.blockSize)) : PRes (Bytes × Nat)),
       (⟨ovUpdate m addr (B ++ b0.drop dev.blockSize)⟩ : CowState), [DevCall.blockSize])
    else ((none : PRes (Bytes × Nat)),
      (⟨ovUpdate m addr (B ++ b0.drop dev.blockSize)⟩ : CowState),
      [DevCall.blockSize])).1
    = some (Except.ok (B ++ buf.drop 512, 512))
  rw [if_pos hvlen.symm]
  rw [hdrop, List.append_nil, h512]
  have hB512 : B.length = 512 := by rw [hB, h512]
  have htake : B.take 512 = B := by
    rw [← hB512]
    exact List.take_length B
  rw [htake]

/-- Round-trip through `CowBlockDevice` at block size 512: after a
successful `write_block(addr, B)`, `read_block(addr, buf)` returns exactly
the bytes `B` (in the first 512 bytes of `buf`). -/
theorem cow_round_trip_512 {σ : Type} (dev : BlockDev σ) (s : σ) (st : CowState)
    (addr : Nat) (B buf : Bytes) (cnt : Nat)
    (h512 : dev.blockSize = 512)
    (hov : ∀ k v, ovLookup st.overlay k = some v → v.length = 512)
    (hlp : ∀ out c2, dev.read s addr blockNew = some (.ok (out, c2)) → out.length = 512)
    (hbuf : 512 ≤ buf.length)
    (hw : (cowWrite dev s st addr B).1 = some (.ok cnt)) :
    (cowRead dev (cowWrite dev s st addr B).2.1 addr buf).1
      = some (.ok (B ++ buf.drop 512, 512)) := by
  unfold cowWrite at hw
  by_cases h1 : B.length < dev.blockSize
  · rw [if_pos h1] at hw
    simp at hw
  · rw [if_neg h1] at hw
    by_cases h2 : (ovLookup st.overlay addr).isSome
    · rw [if_pos h2] at hw
      obtain ⟨b0, hb0⟩ := Option.isSome_iff_exists.mp h2
      have hb0l : b0.length = 512 := hov addr b0 hb0
      have hw' : (cowWriteCopy dev st addr B []).1 = some (.ok cnt) := hw
      obtain ⟨hceq, hBlen⟩ := cowWriteCopy_ok_eq dev st addr B b0 [] cnt hb0 hw'
      have hst : (cowWrite dev s st addr B).2.1
          = ⟨ovUpdate st.overlay addr (B ++ b0.drop dev.blockSize)⟩ := by
        unfold cowWrite
        rw [if_neg h1, if_pos h2]
        show (cowWriteCopy dev st addr B []).2.1 = _
        rw [hceq]
      rw [hst]
      exact cowRead_updated dev st.overlay addr B b0 buf h512 hb0l hBlen hbuf hb0
    · rw [if_neg h2] at hw
      unfold cowLoad at hw
      cases hr : dev.read s addr blockNew with
      | none =>
        rw [hr] at hw
        simp at hw
      | some r =>
        cases r with
        | error e =>
          rw [hr] at hw
          simp at hw
        | ok v =>
          obtain ⟨out, c2⟩ := v
          rw [hr] at hw
          have houtl : out.length = 512 := hlp out c2 hr
          have hw' : (cowWriteCopy dev ⟨ovInsert st.overlay addr out⟩ addr B
              [DevCall.readBlock addr]).1 = some (.ok cnt) := hw
          have hb0 : ovLookup (⟨ovInsert st.overlay addr out⟩ : CowState).overlay addr
              = some out := ovLookup_ovInsert_self _ _ _
          obtain ⟨hceq, hBlen⟩ := cowWriteCopy_ok_eq dev ⟨ovInsert st.overlay addr out⟩
            addr B out [DevCall.readBlock addr] cnt hb0 hw'
          have hst : (cowWrite dev s st addr B).2.1
              = ⟨ovUpdate (ovInsert st.overlay addr out) addr
                  (B ++ out.drop dev.blockSize)⟩ := by
            unfold cowWrite
            rw [if_neg h1, if_neg h2]
            unfold cowLoad
            rw [hr]
            show (cowWriteCopy dev ⟨ovInsert st.overlay addr out⟩ addr B
                [DevCall.readBlock addr]).2.1 = _
            rw [hceq]
          rw [hst]
          exact cowRead_updated dev (ovInsert st.overlay addr out) addr B out buf
            h512 houtl hBlen hbuf (ovLookup_ovInsert_self _ _ _)

/-- Claim C2 (amended): the write-then-read round-trip holds (i) for
`BlockCache` when `addr` is absent from the cache at the time of the
write, over a backing device that itself satisfies the round-trip (and
whose writes do not panic); and (ii) for `CowBlockDevice` when the
wrapped device's block size is 512.  As stated — over every reachable
state and every block size — the claim is false: a previously cached
entry makes the read return the stale cached bytes, and a non-512 block
size makes the cow read of the just-written block panic (see the
counterexample). -/
theorem block_round_trip {σ σ2 : Type} (dev : BlockDev σ) (st : CacheState σ)
    (cdev : BlockDev σ2) (cs : σ2) (cst : CowState)
    (addr caddr : Nat) (B buf CB cbuf : Bytes) (cnt cnt2 ccnt : Nat) (s' : σ) :
    ((st.blockSize = dev.blockSize) → (B.length = dev.blockSize) →
     (buf.length = dev.blockSize) →
     (∀ e ∈ st.cache.data, ((e : Nat × Bytes).1 == addr) = false) →
     (∀ (s2 : σ) (a : Nat) (b : Bytes), dev.write s2 a b ≠ none) →
     dev.write st.dev addr B = some (.ok (s', cnt)) →
     dev.read s' addr (List.replicate dev.blockSize 0) = some (.ok (B, cnt2)) →
     ∃ st2 log, cacheRead dev (cacheWrite dev st addr B).2.1 addr buf
       = (some (.ok (B, buf.length)), st2, log)) ∧
    ((cdev.blockSize = 512) →
     (∀ k v, ovLookup cst.overlay k = some v → v.length = 512) →
     (∀ out c2, cdev.read cs caddr blockNew = some (.ok (out, c2)) →
       out.length = 512) →
     (512 ≤ cbuf.length) →
     ((cowWrite cdev cs cst caddr CB).1 = some (.ok ccnt)) →
     (cowRead cdev (cowWrite cdev cs cst caddr CB).2.1 caddr cbuf).1
       = some (.ok (CB ++ cbuf.drop 512, 512))) :=
  ⟨fun h1 h2 h3 h4 h5 h6 h7 =>
     cache_round_trip_uncached dev st addr B buf cnt cnt2 s' h1 h2 h3 h4 h5 h6 h7,
   fun h1 h2 h3 h4 h5 =>
     cow_round_trip_512 cdev cs cst caddr CB cbuf ccnt h1 h2 h3 h4 h5⟩

/-- Claim C2, as stated, is false.  `BlockCache` over a 1-byte-block
memory device holding `[7]` at address 0: read address 0 (now cached),
then a successful `write_block(0, [9])` (write-through, the cache is not
invalidated), then `read_block(0, _)` — it returns the stale `[7]`, not
the written `[9]`.  And `CowBlockDevice` over a 4-byte-block device:
`write_block(0, [1,2,3,4])` succeeds, but `read_block(0, _)` panics on the
512-into-4 copy instead of yielding the written bytes. -/
theorem block_round_trip_fails :
    ((cacheWrite (memDev 1 8)
        (cacheRead (memDev 1 8) (cacheNew (memDev 1 8) (fun _ => [7]) 10).1
          0 [0]).2.1 0 [9]).1 = some (.ok 1) ∧
     (cacheRead (memDev 1 8)
        (cacheWrite (memDev 1 8)
          (cacheRead (memDev 1 8) (cacheNew (memDev 1 8) (fun _ => [7]) 10).1
            0 [0]).2.1 0 [9]).2.1
        0 [0]).1 = some (.ok ([7], 1)) ∧
     ([7] : Bytes) ≠ [9]) ∧
    ((cowWrite (memDev 4 8) (fun _ => [9, 9, 9, 9]) cowNew 0 [1, 2, 3, 4]).1
        = some (.ok 4) ∧
     (cowRead (memDev 4 8)
        (cowWrite (memDev 4 8) (fun _ => [9, 9, 9, 9]) cowNew 0 [1, 2, 3, 4]).2.1
        0 [0, 0, 0, 0]).1 = none) := by
  refine ⟨⟨rfl, rfl, by simp⟩, rfl, rfl⟩

theorem block_round_trip_witness :
    (∃ st2 log, cacheRead (memDev 2 8)
        (cacheWrite (memDev 2 8) (cacheNew (memDev 2 8) (fun _ => [5, 5]) 10).1
          3 [8, 8]).2.1
        3 [0, 0] = (some (.ok ([8, 8], ([0, 0] : Bytes).length)), st2, log)) ∧
    (cowRead (memDev 512 8)
        (cowWrite (memDev 512 8) (fun _ => List.replicate 512 3) cowNew 7
          (List.replicate 512 8)).2.1
        7 (List.replicate 512 0)).1
      = some (.ok (List.replicate 512 8 ++ (List.replicate 512 0).drop 512, 512)) := by
  have h := block_round_trip (memDev 2 8)
      (cacheNew (memDev 2 8) (fun _ => [5, 5]) 10).1
      (memDev 512 8) (fun _ => List.replicate 512 3) cowNew 3 7
      [8, 8] [0, 0] (List.replicate 512 8) (List.replicate 512 0) 2 2 512
      (fun a' => if a' = 3 then List.take 2 [8, 8] else [5, 5])
  refine ⟨h.1 rfl rfl rfl ?_ ?_ rfl rfl, h.2 rfl ?_ ?_ (by simp) rfl⟩
  · intro e he
    simp [cacheNew, LruCache.new] at he
  · intro s2 a b hc
    simp [memDev] at hc
  · intro k v hv
    simp [cowNew, ovLookup] at hv
  · intro out c2 hr
    injection hr with h1
    injection h1 with h2
    rw [Prod.mk.injEq] at h2
    rw [← h2.1]
    simp [blockNew]

theorem cache_read_buffer_length_contract_witness :
    (([0, 0, 0] : Bytes).length
        > (cacheNew (memDev 2 8) (fun _ => [4, 4]) 10).1.blockSize) ∧
    (cacheRead (memDev 2 8) (cacheNew (memDev 2 8) (fun _ => [4, 4]) 10).1
        0 [0, 0, 0]).1 = none :=
  ⟨by decide,
   (cache_read_buffer_length_contract (memDev 2 8)
      (cacheNew (memDev 2 8) (fun _ => [4, 4]) 10).1 0 [0, 0, 0]
      (by intro e he; simp [cacheNew, LruCache.new] at he)
      (by
        intro out cnt h
        injection h with h1
        injection h1 with h2
        rw [Prod.mk.injEq] at h2
        show out.length = 2
        rw [← h2.1]
        decide)
      (by intro e h; injection h with h1; exact Except.noConfusion h1)).2.2
    (by decide) (Or.inr ⟨[4, 4], 2, rfl⟩)⟩
